import Mathlib

/-!
Verification of the relation-resolution and nested-materialization engine of
django-nested-values (the `values_nested()` machinery combining join-based
eager loading with batched eager loading into dict-shaped results).

The engine itself (`NestedValuesQuerySet.values_nested`) is not shipped in
the source tree under scrutiny; only its test-suite, package declaration and
fixtures are.  Every definition below carrying a doc comment starting with
`Modelled from the spec:` is therefore a faithful rendering of the
natural-language specification (sections 3 to 7) of that missing engine,
checked against the behaviors pinned down by the shipped tests.
-/

set_option maxHeartbeats 1000000

namespace NestedValues

/-- Modelled from the spec: the values stored in a `MaterializedNode`
(spec section 3).  A relation-valued entry is either `null` (to-one,
unresolved), a mapping (to-one, resolved), or an ordered list of mappings
(to-many); scalar columns are integers or strings. -/
inductive Value where
  | vint (n : Int)
  | vstr (s : String)
  | vnull
  | vobj (fields : List (String × Value))
  | varr (elems : List Value)

/-- A materialized node: an ordered mapping from field/relation name to value. -/
abbrev Node := List (String × Value)

/-- First binding of key `k` in the node, if any. -/
def getKey (n : Node) (k : String) : Option Value :=
  match n with
  | [] => none
  | (k', v) :: rest => if k' = k then some v else getKey rest k

/-- Whether the node holds a binding for `k`. -/
def hasKey (n : Node) (k : String) : Bool :=
  (getKey n k).isSome

/-- Replace the first binding of `k` (or append one). -/
def setKey (n : Node) (k : String) (v : Value) : Node :=
  match n with
  | [] => [(k, v)]
  | (k', v') :: rest => if k' = k then (k, v) :: rest else (k', v') :: setKey rest k v

/-- Modelled from the spec: relation cardinality (spec section 3,
`RelationSegment.kind` collapsed to its shape: generic relations share the
shape of their direct counterpart). -/
inductive Kind where
  | toOne
  | toMany
deriving DecidableEq

/-- Modelled from the spec: one segment of a `RelationPath` (spec section 3). -/
structure Segment where
  name : String
  kind : Kind
deriving DecidableEq

/-- Modelled from the spec: the empty node created for a missing intermediate
segment, per its kind (spec section 4.2). -/
def emptyFor : Kind → Value
  | .toOne => .vobj []
  | .toMany => .varr []

/-- Modelled from the spec: get-or-create for one segment (spec section 4.2).
An existing non-null node is reused in place; otherwise an empty node (or
empty list, per the segment's kind) is created under the segment's name. -/
def resolveSeg (seg : Segment) (n : Node) : Node :=
  match getKey n seg.name with
  | some (.vobj _) => n
  | some (.varr _) => n
  | _ => setKey n seg.name (emptyFor seg.kind)

/-- Modelled from the spec: the Path Resolver / Tree Builder (spec section
4.2) phrased as a transformer: apply `f` to every node located at `path`,
creating missing intermediate nodes on demand and fanning out across to-many
intermediate segments. -/
def atPath : List Segment → (Node → Node) → Node → Node
  | [], f, n => f n
  | seg :: rest, f, n =>
    let n' := resolveSeg seg n
    match getKey n' seg.name with
    | some (.vobj fs) => setKey n' seg.name (.vobj (atPath rest f fs))
    | some (.varr es) =>
        setKey n' seg.name (.varr (es.map (fun e =>
          match e with
          | .vobj fs => .vobj (atPath rest f fs)
          | other => other)))
    | _ => n'

/-- The nodes `atPath` applies its transformation to: the nodes located at
`path` (after on-demand creation of intermediates), in traversal order. -/
def nodesAtPath : List Segment → Node → List Node
  | [], n => [n]
  | seg :: rest, n =>
    let n' := resolveSeg seg n
    match getKey n' seg.name with
    | some (.vobj fs) => nodesAtPath rest fs
    | some (.varr es) =>
        es.flatMap (fun e =>
          match e with
          | .vobj fs => nodesAtPath rest fs
          | _ => [])
    | _ => []

/-- Read-only traversal along a chain of to-one nodes. -/
def getAtPath (n : Node) : List String → Option Node
  | [] => some n
  | k :: rest =>
    match getKey n k with
    | some (.vobj fs) => getAtPath fs rest
    | _ => none

/-- Modelled from the spec: field projection (spec section 3,
`fieldProjection`): an optional set of allowed field names that always
admits the identity field, applied wherever a node is built from columns. -/
def projectFields (proj : Option (List String)) (idField : String) (cols : Node) : Node :=
  match proj with
  | none => cols
  | some allowed => cols.filter (fun c => allowed.contains c.1 || c.1 == idField)

/-- Modelled from the spec: one join-based relation directive
(`select_related`): a to-one chain plus an optional field projection. -/
structure JoinDirective where
  path : List Segment
  proj : Option (List String)

/-- Modelled from the spec: one `RootRecord` (spec section 3): the row's own
projected columns plus, per joined path, the joined columns namespaced by
path.  A join path absent from `joined` had a null joined identity column
(absent related row). -/
structure RootRecord where
  own : Node
  joined : List (List String × Node)

/-- The joined columns carried by the record for a given path, if the joined
row exists. -/
def lookupJoin (r : RootRecord) (p : List String) : Option Node :=
  match r.joined.find? (fun q => q.1 == p) with
  | some q => some q.2
  | none => none

/-- Modelled from the spec: the value the Join-Result Materializer places at
a join path's leaf (spec section 4.3): `null` when the joined identity
column is null, otherwise the joined columns filtered by the directive's
field projection. -/
def joinLeafValue (idField : String) (r : RootRecord) (d : JoinDirective) : Value :=
  match lookupJoin r (d.path.map (fun s => s.name)) with
  | none => .vnull
  | some cols => .vobj (projectFields d.proj idField cols)

/-- Apply one join directive: resolve the parent path and populate the leaf. -/
def applyJoin (idField : String) (r : RootRecord) (n : Node) (d : JoinDirective) : Node :=
  match d.path.getLast? with
  | none => n
  | some leaf =>
      atPath d.path.dropLast
        (fun parent => setKey parent leaf.name (joinLeafValue idField r d)) n

/-- Insertion step of the shortest-first ordering of join directives. -/
def insertByLen (d : JoinDirective) : List JoinDirective → List JoinDirective
  | [] => [d]
  | e :: rest =>
      if d.path.length ≤ e.path.length then d :: e :: rest else e :: insertByLen d rest

/-- Modelled from the spec: breadth-first (shortest-first) ordering of the
join paths (spec section 4.3), so parents exist before children attach. -/
def sortByLen : List JoinDirective → List JoinDirective
  | [] => []
  | d :: rest => insertByLen d (sortByLen rest)

/-- Modelled from the spec: the Join-Result Materializer (spec section 4.3):
seed the root node with the row's own projected fields, then apply every
join path shortest-first. -/
def materializeJoin (idField : String) (rootProj : Option (List String))
    (ds : List JoinDirective) (r : RootRecord) : Node :=
  (sortByLen ds).foldl (applyJoin idField r) (projectFields rootProj idField r.own)

/-- Modelled from the spec: one batch-fetch relation directive
(`prefetch_related`): the relation path and the output key under which the
fetched value is linked (defaults to the leaf relation's name, overridable
via `to_attr`). -/
structure BatchDirective where
  path : List Segment
  outKey : String

/-- The parent path of a batch directive (everything but the fetched leaf). -/
def parentSegs (d : BatchDirective) : List Segment :=
  d.path.dropLast

/-- The cardinality of the fetched leaf relation. -/
def leafKind (d : BatchDirective) : Kind :=
  match d.path.getLast? with
  | some s => s.kind
  | none => .toOne

/-- Modelled from the spec: the leaf value for a parent identity absent from
the batch result (spec section 4.4 step 2): `null` for to-one, `[]` for
to-many. -/
def emptyLeaf : Kind → Value
  | .toOne => .vnull
  | .toMany => .varr []

/-- A value is relation-valued (null, mapping or list) rather than scalar. -/
def isRelValue : Value → Bool
  | .vobj _ => true
  | .varr _ => true
  | .vnull => true
  | _ => false

/-- Modelled from the spec: to-one merge (spec section 4.4 step 3): every
field present on the existing node is preserved and the incoming node's
relation-valued keys not already present are added. -/
def addRelKeys (existing incoming : Node) : Node :=
  existing ++ incoming.filter (fun kv => isRelValue kv.2 && !(hasKey existing kv.1))

/-- The identity carried by a value, when it is an integer. -/
def valueId : Option Value → Option Int
  | some (.vint n) => some n
  | _ => none

/-- The identity field value of a node. -/
def nodeId (idField : String) (n : Node) : Option Int :=
  valueId (getKey n idField)

/-- The identity of a list element (which must be a mapping). -/
def elemId (idField : String) : Value → Option Int
  | .vobj fs => nodeId idField fs
  | _ => none

/-- First element of the list with the given identity. -/
def findById (idField : String) (xs : List Value) (i : Int) : Option Value :=
  xs.find? (fun x => elemId idField x == some i)

/-- Merge one existing to-many item with its same-identity incoming
counterpart, if any: existing fields retained, incoming relation keys added. -/
def mergeElem (idField : String) (incoming : List Value) (e : Value) : Value :=
  match e with
  | .vobj fs =>
      match nodeId idField fs with
      | some i =>
          match findById idField incoming i with
          | some (.vobj inc) => .vobj (addRelKeys fs inc)
          | _ => e
      | none => e
  | _ => e

/-- Whether the list already holds an item with this item's identity. -/
def memById (idField : String) (xs : List Value) (x : Value) : Bool :=
  match elemId idField x with
  | some i => (findById idField xs i).isSome
  | none => false

/-- Modelled from the spec: to-many merge (spec section 4.4 step 3): items
with the same identity are merged field-by-field, incoming items with new
identities are appended, existing items are never dropped. -/
def mergeLists (idField : String) (existing incoming : List Value) : List Value :=
  existing.map (mergeElem idField incoming)
    ++ incoming.filter (fun x => !(memById idField existing x))

/-- Modelled from the spec: merge of a batch-fetched value into the value
already at the output key (spec section 4.4 step 3): mappings merge
field-wise, lists merge item-wise by identity, `null` is superseded, and on
a shape conflict the existing value is kept (non-overwrite invariant). -/
def mergeValues (idField : String) (existing incoming : Value) : Value :=
  match existing, incoming with
  | .vobj e, .vobj i => .vobj (addRelKeys e i)
  | .varr e, .varr i => .varr (mergeLists idField e i)
  | .vnull, i => i
  | e, _ => e

/-- Lookup of a parent identity in a batch result. -/
def lookupEntry (entries : List (Int × Value)) (i : Int) : Option Value :=
  match entries.find? (fun e => e.1 == i) with
  | some e => some e.2
  | none => none

/-- Modelled from the spec: the Batch-Fetch Merger's per-parent step (spec
section 4.4 steps 2 to 4): read the parent's identity, look it up in the
`BatchFetchResult`; if absent, the leaf becomes `null`/`[]` unless a
non-null value is already present (which is never overwritten); if present,
merge into any existing value, else link it directly. -/
def mergeIntoParent (idField : String) (d : BatchDirective)
    (bfr : List (Int × Value)) (parent : Node) : Node :=
  match nodeId idField parent with
  | none => parent
  | some pid =>
    match lookupEntry bfr pid with
    | none =>
      match getKey parent d.outKey with
      | none => setKey parent d.outKey (emptyLeaf (leafKind d))
      | some .vnull => setKey parent d.outKey (emptyLeaf (leafKind d))
      | some _ => parent
    | some v =>
      match getKey parent d.outKey with
      | some ex => setKey parent d.outKey (mergeValues idField ex v)
      | none => setKey parent d.outKey v

/-- Modelled from the spec: merge one batch-fetch result into one root tree
(spec section 4.4 step 1): locate every node at the path's parent path
(fanning out across to-many ancestors) and merge per parent identity. -/
def applyBatchOne (idField : String) (d : BatchDirective)
    (bfr : List (Int × Value)) (n : Node) : Node :=
  atPath (parentSegs d) (mergeIntoParent idField d bfr) n

/-- The queries the engine drives (spec sections 5 and 6): the single root
query, then one batch query per batch-fetch path carrying the parent
identities it is batched over. -/
inductive Query where
  | rootQuery
  | batchQuery (path : List String) (parentIds : List Int)
deriving DecidableEq

/-- Modelled from the spec: the excluded query-execution collaborator (spec
section 6): a stream of root records and, per batch-fetch path, the full
relation table keyed by parent identity. -/
structure Collaborator where
  rootRows : List RootRecord
  batchTable : List String → List (Int × Value)

/-- A batch query against the collaborator: entries of the path's relation
table restricted to the requested parent identities. -/
def batchFetch (c : Collaborator) (path : List String) (pids : List Int) :
    List (Int × Value) :=
  (c.batchTable path).filter (fun e => pids.contains e.1)

/-- The parent identities at a parent path, batched across all roots at that
depth (spec section 5). -/
def collectIds (idField : String) (parent : List Segment) (roots : List Node) :
    List Int :=
  roots.flatMap (fun n => (nodesAtPath parent n).filterMap (nodeId idField))

/-- Modelled from the spec: the full directive set of one materialization
call (spec section 6 entry point). -/
structure Config where
  rootProj : Option (List String)
  joins : List JoinDirective
  batches : List BatchDirective

/-- The names of a batch directive's path. -/
def pathNames (d : BatchDirective) : List String :=
  d.path.map (fun s => s.name)

/-- One step of the batch-fetch phase: collect parent identities across all
roots, drive one batched query, merge its result into every root. -/
def batchStep (idField : String) (c : Collaborator)
    (acc : List Query × List Node) (d : BatchDirective) : List Query × List Node :=
  let pids := collectIds idField (parentSegs d) acc.2
  let bfr := batchFetch c (pathNames d) pids
  (acc.1 ++ [Query.batchQuery (pathNames d) pids],
   acc.2.map (applyBatchOne idField d bfr))

/-- Modelled from the spec: the batch-fetch phase (spec sections 4.4 and 5):
one query per batch directive in sequence, each batched across all parent
identities at that depth. -/
def runBatches (idField : String) (c : Collaborator)
    (ds : List BatchDirective) (roots : List Node) : List Query × List Node :=
  ds.foldl (batchStep idField c) ([], roots)

/-- Modelled from the spec: the full materialization (spec section 4.5):
drive the root query, materialize each row's join tree, then run the batch
phase; returns the query log and the root-level nodes in row order. -/
def valuesNested (idField : String) (cfg : Config) (c : Collaborator) :
    List Query × List Node :=
  let roots := c.rootRows.map (materializeJoin idField cfg.rootProj cfg.joins)
  let out := runBatches idField c cfg.batches roots
  (Query.rootQuery :: out.1, out.2)

/-- Modelled from the spec: slicing the lazy result sequence (spec section
4.5): the root-level sequence is narrowed first, and the batch phase runs
over the already-limited root set only. -/
def valuesNestedSlice (idField : String) (cfg : Config) (c : Collaborator)
    (k : Nat) : List Query × List Node :=
  valuesNested idField cfg { c with rootRows := c.rootRows.take k }

/-- Modelled from the spec: the count-only operation (spec section 4.5):
executes solely the join-based root query; no batch query is driven. -/
def countOnly (idField : String) (cfg : Config) (c : Collaborator) :
    List Query × Nat :=
  ([Query.rootQuery],
   (c.rootRows.map (materializeJoin idField cfg.rootProj cfg.joins)).length)

/-- Modelled from the spec: one generic (polymorphic) to-one batch-fetch
directive (spec sections 4.4 and 9): the parent row carries a type tag and a
target identity; `targets` maps each requested type tag to its fetched
table. -/
structure GenericDirective where
  outKey : String
  ctField : String
  oidField : String
  targets : List (Int × List (Int × Value))

/-- The fetched table for a type tag, when that type was requested. -/
def lookupTarget (ts : List (Int × List (Int × Value))) (ct : Int) :
    Option (List (Int × Value)) :=
  match ts.find? (fun t => t.1 == ct) with
  | some t => some t.2
  | none => none

/-- Modelled from the spec: resolution of a generic to-one reference (spec
sections 4.4 and 7): a type tag not among the requested target types yields
`null`, a target identity missing from the fetched table (dangling
reference) yields `null`; neither is an error. -/
def mergeGeneric (gd : GenericDirective) (parent : Node) : Node :=
  match valueId (getKey parent gd.ctField), valueId (getKey parent gd.oidField) with
  | some ct, some oid =>
    match lookupTarget gd.targets ct with
    | none => setKey parent gd.outKey .vnull
    | some tbl =>
      match lookupEntry tbl oid with
      | none => setKey parent gd.outKey .vnull
      | some v => setKey parent gd.outKey v
  | _, _ => parent

/-- Whether a query is the root query. -/
def isRoot : Query → Bool
  | .rootQuery => true
  | _ => false

/-- Whether a query is a batch query for the given relation path. -/
def isBatchFor (p : List String) : Query → Bool
  | .batchQuery p' _ => p' == p
  | _ => false

/-- The query log of the batch phase, path by path, with the parent
identities each query is batched over. -/
def batchLog (idField : String) (c : Collaborator) :
    List BatchDirective → List Node → List Query
  | [], _ => []
  | d :: ds, roots =>
    let pids := collectIds idField (parentSegs d) roots
    Query.batchQuery (pathNames d) pids
      :: batchLog idField c ds
        (roots.map (applyBatchOne idField d (batchFetch c (pathNames d) pids)))

/-- The root nodes after the batch phase, path by path. -/
def batchRun (idField : String) (c : Collaborator) :
    List BatchDirective → List Node → List Node
  | [], roots => roots
  | d :: ds, roots =>
    let pids := collectIds idField (parentSegs d) roots
    batchRun idField c ds
      (roots.map (applyBatchOne idField d (batchFetch c (pathNames d) pids)))

/-- Whether a value is scalarly shaped (not a mapping or a list). -/
def scalarOK : Value → Bool
  | .vobj _ => false
  | .varr _ => false
  | _ => true

/-- Shape demanded of a single binding by a kind assignment: to-one
relations hold `null` or a mapping, to-many relations hold a list, and
non-relation keys hold scalars. -/
def shapeTop (ko : String → Option Kind) (k : String) (v : Value) : Bool :=
  match ko k with
  | some .toOne =>
    match v with
    | .vnull => true
    | .vobj _ => true
    | _ => false
  | some .toMany =>
    match v with
    | .varr _ => true
    | _ => false
  | none => scalarOK v

mutual

/-- A value is well shaped under a kind assignment: recursively, every
binding of every mapping matches its kind's shape and every list element is
a mapping. -/
def wsV (ko : String → Option Kind) : Value → Bool
  | .vobj fs => wsN ko fs
  | .varr es => wsL ko es
  | _ => true

/-- A node is well shaped: every binding matches its kind's shape. -/
def wsN (ko : String → Option Kind) : List (String × Value) → Bool
  | [] => true
  | (k, v) :: rest => shapeTop ko k v && wsV ko v && wsN ko rest

/-- A to-many list is well shaped: every element is a well-shaped mapping. -/
def wsL (ko : String → Option Kind) : List Value → Bool
  | [] => true
  | e :: rest =>
    (match e with
     | .vobj fs => wsN ko fs
     | _ => false) && wsL ko rest

end

/-- Shape demanded of a whole batch-fetched value by the leaf kind. -/
def valShape (ko : String → Option Kind) (kind : Kind) (v : Value) : Bool :=
  match kind, v with
  | .toOne, .vnull => true
  | .toOne, .vobj fs => wsN ko fs
  | .toMany, .varr es => wsL ko es
  | _, _ => false

/-- A directive's segments agree with the kind assignment. -/
def segsAgree (ko : String → Option Kind) (segs : List Segment) : Prop :=
  ∀ seg ∈ segs, ko seg.name = some seg.kind

/-! ### Sample data used by the witnesses (the spec's scenarios and the
shipped test fixtures) -/

/-- A root node as produced by the join phase: book 1 with its joined
publisher node, as in the spec's Scenario A. -/
def bookNode : Node :=
  [("id", .vint 1), ("title", .vstr "X"), ("publisher_id", .vint 10),
   ("publisher", .vobj [("id", .vint 10), ("name", .vstr "P")])]

/-- The batch-fetch directive for `publisher__books` of Scenario B. -/
def pubBooksDirective : BatchDirective :=
  ⟨[⟨"publisher", .toOne⟩, ⟨"books", .toMany⟩], "books"⟩

/-- The batch result for `publisher__books` keyed by publisher identity. -/
def pubBooksResult : List (Int × Value) :=
  [(10, .varr [.vobj [("id", .vint 1), ("title", .vstr "X")]])]

/-- A tagged item pointing at type tag 7 (not requested below). -/
def taggedItemNode : Node :=
  [("id", .vint 1), ("tag", .vstr "comment-only"),
   ("content_type_id", .vint 7), ("object_id", .vint 5)]

/-- A dangling tagged item: type tag 3 is requested but identity 99999 does
not exist in the fetched table. -/
def danglingItemNode : Node :=
  [("id", .vint 2), ("tag", .vstr "dangling-ref"),
   ("content_type_id", .vint 3), ("object_id", .vint 99999)]

/-- The generic batch-fetch directive requesting only type tag 3. -/
def articleOnlyDirective : GenericDirective :=
  ⟨"content_object", "content_type_id", "object_id",
   [(3, [(5, .vobj [("id", .vint 5), ("title", .vstr "A")])])]⟩

/-- The root record of Scenario A: book 1 with joined publisher columns. -/
def bookRecord : RootRecord :=
  { own := [("id", .vint 1), ("title", .vstr "X"), ("publisher_id", .vint 10)]
    joined := [(["publisher"], [("id", .vint 10), ("name", .vstr "P")])] }

/-- A second root record: book 2 of the same publisher. -/
def bookRecord2 : RootRecord :=
  { own := [("id", .vint 2), ("title", .vstr "Y"), ("publisher_id", .vint 10)]
    joined := [(["publisher"], [("id", .vint 10), ("name", .vstr "P")])] }

/-- The configuration of the combined test: join on `publisher`, batch-fetch
`authors` and `publisher__books`. -/
def sampleConfig : Config :=
  { rootProj := none
    joins := [⟨[⟨"publisher", .toOne⟩], none⟩]
    batches := [⟨[⟨"authors", .toMany⟩], "authors"⟩, pubBooksDirective] }

/-- A collaborator holding two book rows, an authors table and the
publisher-books table. -/
def sampleCollab : Collaborator :=
  { rootRows := [bookRecord, bookRecord2]
    batchTable := fun p =>
      if p = ["authors"] then
        [(1, .varr [.vobj [("id", .vint 100), ("name", .vstr "John")],
                    .vobj [("id", .vint 101), ("name", .vstr "Jane")]]),
         (2, .varr [.vobj [("id", .vint 102), ("name", .vstr "Bob")]])]
      else if p = ["publisher", "books"] then
        [(10, .varr [.vobj [("id", .vint 1), ("title", .vstr "X")],
                     .vobj [("id", .vint 2), ("title", .vstr "Y")]])]
      else [] }

/-- The kind assignment of the test schema. -/
def sampleKinds : String → Option Kind :=
  fun k =>
    if k = "publisher" then some .toOne
    else if k = "authors" then some .toMany
    else if k = "books" then some .toMany
    else if k = "chapters" then some .toMany
    else none

/-! ### Basic lemmas about node operations -/

theorem getKey_setKey_self (n : Node) (k : String) (v : Value) :
    getKey (setKey n k v) k = some v := by
  induction n with
  | nil => simp [setKey, getKey]
  | cons kv rest ih =>
    obtain ⟨k', v'⟩ := kv
    by_cases h : k' = k
    · simp [setKey, getKey, h]
    · simp [setKey, getKey, h, ih]

theorem getKey_setKey_ne (n : Node) (k k' : String) (v : Value) (h : k' ≠ k) :
    getKey (setKey n k v) k' = getKey n k' := by
  have h' : ¬ k = k' := fun hh => h hh.symm
  induction n with
  | nil => simp [setKey, getKey, h']
  | cons kv rest ih =>
    obtain ⟨k₀, v₀⟩ := kv
    by_cases h₀ : k₀ = k
    · subst h₀
      simp [setKey, getKey, h']
    · simp [setKey, getKey, h₀, ih]

theorem setKey_setKey_self (n : Node) (k : String) (v w : Value) :
    setKey (setKey n k v) k w = setKey n k w := by
  induction n with
  | nil => simp [setKey]
  | cons kv rest ih =>
    obtain ⟨k₀, v₀⟩ := kv
    by_cases h₀ : k₀ = k
    · simp [setKey, h₀]
    · simp [setKey, h₀, ih]

theorem setKey_of_getKey_eq (n : Node) (k : String) (v : Value)
    (h : getKey n k = some v) : setKey n k v = n := by
  induction n with
  | nil => simp [getKey] at h
  | cons kv rest ih =>
    obtain ⟨k₀, v₀⟩ := kv
    by_cases h₀ : k₀ = k
    · subst h₀
      simp [getKey] at h
      simp [setKey, h]
    · simp [getKey, h₀] at h
      simp [setKey, h₀, ih h]

theorem hasKey_setKey_mono (n : Node) (k k' : String) (v : Value)
    (h : hasKey n k' = true) : hasKey (setKey n k v) k' = true := by
  by_cases hk : k' = k
  · subst hk
    simp [hasKey, getKey_setKey_self]
  · simpa [hasKey, getKey_setKey_ne n k k' v hk] using h

theorem getKey_append (a b : Node) (k : String) :
    getKey (a ++ b) k = ((getKey a k).or (getKey b k)) := by
  induction a with
  | nil => simp [getKey]
  | cons kv rest ih =>
    obtain ⟨k₀, v₀⟩ := kv
    by_cases h₀ : k₀ = k
    · simp [getKey, h₀]
    · simp [getKey, h₀, ih]

/-- Every binding of the existing node survives a to-one merge unchanged. -/
theorem getKey_addRelKeys (e i : Node) (k : String) (v : Value)
    (h : getKey e k = some v) : getKey (addRelKeys e i) k = some v := by
  simp [addRelKeys, getKey_append, h, Option.or]

/-! ### Lemmas about the path resolver -/

/-- After `resolveSeg`, the segment's key holds a mapping or a list. -/
theorem resolveSeg_shape (seg : Segment) (n : Node) :
    (∃ fs, getKey (resolveSeg seg n) seg.name = some (.vobj fs)) ∨
    (∃ es, getKey (resolveSeg seg n) seg.name = some (.varr es)) := by
  unfold resolveSeg
  cases h : getKey n seg.name with
  | none =>
    cases hk : seg.kind <;>
      simp [h, hk, emptyFor, getKey_setKey_self]
  | some v =>
    cases v with
    | vobj fs => exact Or.inl ⟨fs, by simp [h]⟩
    | varr es => exact Or.inr ⟨es, by simp [h]⟩
    | vint m => cases hk : seg.kind <;> simp [h, hk, emptyFor, getKey_setKey_self]
    | vstr s => cases hk : seg.kind <;> simp [h, hk, emptyFor, getKey_setKey_self]
    | vnull => cases hk : seg.kind <;> simp [h, hk, emptyFor, getKey_setKey_self]

/-- The resolver reuses an existing mapping in place. -/
theorem resolveSeg_reuse_obj (seg : Segment) (n : Node) (fs : List (String × Value))
    (h : getKey n seg.name = some (.vobj fs)) : resolveSeg seg n = n := by
  simp [resolveSeg, h]

/-- The resolver reuses an existing list in place. -/
theorem resolveSeg_reuse_arr (seg : Segment) (n : Node) (es : List Value)
    (h : getKey n seg.name = some (.varr es)) : resolveSeg seg n = n := by
  simp [resolveSeg, h]

theorem getKey_resolveSeg_ne (seg : Segment) (n : Node) (k : String)
    (h : k ≠ seg.name) : getKey (resolveSeg seg n) k = getKey n k := by
  unfold resolveSeg
  cases hg : getKey n seg.name with
  | none => simp [getKey_setKey_ne n seg.name k _ h]
  | some v =>
    cases v <;> simp [getKey_setKey_ne n seg.name k _ h]

/-- Transforming at a path reaches exactly the node a read-only traversal
finds, when the path is an existing to-one chain. -/
theorem getAtPath_atPath (ps : List Segment) (f : Node → Node) (n m : Node)
    (h : getAtPath n (ps.map (fun s => s.name)) = some m) :
    getAtPath (atPath ps f n) (ps.map (fun s => s.name)) = some (f m) := by
  induction ps generalizing n m with
  | nil =>
    simp [getAtPath] at h
    subst h
    simp [atPath, getAtPath]
  | cons seg rest ih =>
    cases hg : getKey n seg.name with
    | none => simp [getAtPath, hg] at h
    | some v =>
      cases v with
      | vobj fs =>
        simp only [List.map_cons, getAtPath, hg] at h
        have hres : resolveSeg seg n = n := resolveSeg_reuse_obj seg n fs hg
        have hstep : atPath (seg :: rest) f n
            = setKey n seg.name (.vobj (atPath rest f fs)) := by
          simp [atPath, hres, hg]
        rw [hstep]
        simp only [List.map_cons, getAtPath, getKey_setKey_self]
        exact ih fs m h
      | vint m' => simp [getAtPath, hg] at h
      | vstr s => simp [getAtPath, hg] at h
      | vnull => simp [getAtPath, hg] at h
      | varr es => simp [getAtPath, hg] at h

/-- Resolution with no payload is idempotent: running the get-or-create
resolver a second time over the same path changes nothing. -/
theorem atPath_id_idem (ps : List Segment) (n : Node) :
    atPath ps id (atPath ps id n) = atPath ps id n := by
  induction ps generalizing n with
  | nil => simp [atPath]
  | cons seg rest ih =>
    rcases resolveSeg_shape seg n with ⟨fs, hfs⟩ | ⟨es, hes⟩
    · have h1 : atPath (seg :: rest) id n
          = setKey (resolveSeg seg n) seg.name (.vobj (atPath rest id fs)) := by
        simp [atPath, hfs]
      have h2 : getKey (setKey (resolveSeg seg n) seg.name (.vobj (atPath rest id fs)))
          seg.name = some (.vobj (atPath rest id fs)) := getKey_setKey_self _ _ _
      have h3 := resolveSeg_reuse_obj seg _ _ h2
      rw [h1]
      simp [atPath, h3, h2, ih, setKey_setKey_self]
    · have h1 : atPath (seg :: rest) id n
          = setKey (resolveSeg seg n) seg.name (.varr (es.map (fun e =>
              match e with
              | .vobj fs => .vobj (atPath rest id fs)
              | other => other))) := by
        simp [atPath, hes]
      have h2 : getKey (setKey (resolveSeg seg n) seg.name (.varr (es.map (fun e =>
          match e with
          | .vobj fs => .vobj (atPath rest id fs)
          | other => other)))) seg.name = some (.varr (es.map (fun e =>
          match e with
          | .vobj fs => .vobj (atPath rest id fs)
          | other => other))) := getKey_setKey_self _ _ _
      have h3 := resolveSeg_reuse_arr seg _ _ h2
      rw [h1]
      simp only [atPath, h3, h2, setKey_setKey_self]
      congr 2
      rw [List.map_map]
      refine List.map_congr_left (fun e _ => ?_)
      cases e <;> simp [ih]

theorem flatMap_congr_mem {α β : Type} (l : List α) (f g : α → List β)
    (h : ∀ a ∈ l, f a = g a) : l.flatMap f = l.flatMap g := by
  induction l with
  | nil => simp
  | cons x xs ih =>
    simp only [List.flatMap_cons]
    rw [h x (by simp), ih (fun a ha => h a (by simp [ha]))]

theorem flatMap_map_fn {α β γ : Type} (l : List α) (f : α → β) (g : β → List γ) :
    (l.map f).flatMap g = l.flatMap (fun a => g (f a)) := by
  induction l with
  | nil => simp
  | cons x xs ih => simp [ih]

/-- The nodes located at a path are stable under materializing the
creation of that path's intermediate nodes: re-resolving returns the same
nodes. -/
theorem nodesAtPath_atPath_id (ps : List Segment) (n : Node) :
    nodesAtPath ps (atPath ps id n) = nodesAtPath ps n := by
  induction ps generalizing n with
  | nil => simp [atPath, nodesAtPath]
  | cons seg rest ih =>
    rcases resolveSeg_shape seg n with ⟨fs, hfs⟩ | ⟨es, hes⟩
    · have h1 : atPath (seg :: rest) id n
          = setKey (resolveSeg seg n) seg.name (.vobj (atPath rest id fs)) := by
        simp [atPath, hfs]
      have h2 : getKey (setKey (resolveSeg seg n) seg.name (.vobj (atPath rest id fs)))
          seg.name = some (.vobj (atPath rest id fs)) := getKey_setKey_self _ _ _
      have h3 := resolveSeg_reuse_obj seg _ _ h2
      rw [h1]
      simp [nodesAtPath, h3, h2, ih, hfs]
    · have h1 : atPath (seg :: rest) id n
          = setKey (resolveSeg seg n) seg.name (.varr (es.map (fun e =>
              match e with
              | .vobj fs => .vobj (atPath rest id fs)
              | other => other))) := by
        simp [atPath, hes]
      have h2 : getKey (setKey (resolveSeg seg n) seg.name (.varr (es.map (fun e =>
          match e with
          | .vobj fs => .vobj (atPath rest id fs)
          | other => other)))) seg.name = some (.varr (es.map (fun e =>
          match e with
          | .vobj fs => .vobj (atPath rest id fs)
          | other => other))) := getKey_setKey_self _ _ _
      have h3 := resolveSeg_reuse_arr seg _ _ h2
      rw [h1]
      simp only [nodesAtPath, h3, h2, hes]
      rw [flatMap_map_fn]
      refine flatMap_congr_mem _ _ _ (fun e _ => ?_)
      cases e <;> simp [ih]

/-- Two transformations agreeing on every node located at a path produce
the same tree. -/
theorem atPath_congr (ps : List Segment) (f g : Node → Node) (n : Node)
    (h : ∀ m ∈ nodesAtPath ps n, f m = g m) : atPath ps f n = atPath ps g n := by
  induction ps generalizing n with
  | nil => simpa [atPath] using h n (by simp [nodesAtPath])
  | cons seg rest ih =>
    rcases resolveSeg_shape seg n with ⟨fs, hfs⟩ | ⟨es, hes⟩
    · have hn : nodesAtPath (seg :: rest) n = nodesAtPath rest fs := by
        simp [nodesAtPath, hfs]
      have hrec := ih fs (fun m hm => h m (by rw [hn]; exact hm))
      simp [atPath, hfs, hrec]
    · have hn : nodesAtPath (seg :: rest) n = es.flatMap (fun e =>
          match e with
          | .vobj fs => nodesAtPath rest fs
          | _ => []) := by
        simp [nodesAtPath, hes]
      have hmain : es.map (fun e =>
            match e with
            | .vobj fs => Value.vobj (atPath rest f fs)
            | other => other)
          = es.map (fun e =>
            match e with
            | .vobj fs => Value.vobj (atPath rest g fs)
            | other => other) := by
        refine List.map_congr_left (fun e he => ?_)
        cases e with
        | vobj fs' =>
          simp only
          congr 1
          refine ih fs' (fun m hm => h m ?_)
          rw [hn]
          exact List.mem_flatMap.mpr ⟨.vobj fs', he, hm⟩
        | vint m' => rfl
        | vstr s => rfl
        | vnull => rfl
        | varr es' => rfl
      simp [atPath, hes, hmain]

/-! ### Lemmas about the batch merge step -/

/-- Merging into an existing mapping retains every one of its bindings. -/
theorem mergeValues_obj (idField : String) (fs : List (String × Value)) (v : Value) :
    ∃ fs', mergeValues idField (.vobj fs) v = .vobj fs' ∧
      ∀ k w, getKey fs k = some w → getKey fs' k = some w := by
  cases v with
  | vobj i => exact ⟨addRelKeys fs i, rfl, fun k w hw => getKey_addRelKeys fs i k w hw⟩
  | vint m => exact ⟨fs, rfl, fun _ _ hw => hw⟩
  | vstr s => exact ⟨fs, rfl, fun _ _ hw => hw⟩
  | vnull => exact ⟨fs, rfl, fun _ _ hw => hw⟩
  | varr es => exact ⟨fs, rfl, fun _ _ hw => hw⟩

/-- The merge step at a parent node with an identity: bindings other than
the output key are untouched, the output key is present afterwards, and a
mapping already at the output key only ever gains bindings. -/
theorem mergeIntoParent_preserves (idField : String) (d : BatchDirective)
    (bfr : List (Int × Value)) (m : Node) (pid : Int)
    (hid : nodeId idField m = some pid) :
    (∀ k v, k ≠ d.outKey → getKey m k = some v →
      getKey (mergeIntoParent idField d bfr m) k = some v) ∧
    hasKey (mergeIntoParent idField d bfr m) d.outKey = true ∧
    (∀ fs, getKey m d.outKey = some (.vobj fs) →
      ∃ fs', getKey (mergeIntoParent idField d bfr m) d.outKey = some (.vobj fs') ∧
        ∀ k v, getKey fs k = some v → getKey fs' k = some v) := by
  cases hl : lookupEntry bfr pid with
  | none =>
    cases hk : getKey m d.outKey with
    | none =>
      have hm : mergeIntoParent idField d bfr m
          = setKey m d.outKey (emptyLeaf (leafKind d)) := by
        simp [mergeIntoParent, hid, hl, hk]
      rw [hm]
      refine ⟨fun k v hne hv => ?_, ?_, fun fs hfs => by simp at hfs⟩
      · simpa [getKey_setKey_ne m d.outKey k _ hne] using hv
      · simp [hasKey, getKey_setKey_self]
    | some ex =>
      cases ex with
      | vnull =>
        have hm : mergeIntoParent idField d bfr m
            = setKey m d.outKey (emptyLeaf (leafKind d)) := by
          simp [mergeIntoParent, hid, hl, hk]
        rw [hm]
        refine ⟨fun k v hne hv => ?_, ?_, fun fs hfs => by simp at hfs⟩
        · simpa [getKey_setKey_ne m d.outKey k _ hne] using hv
        · simp [hasKey, getKey_setKey_self]
      | vobj fs =>
        have hm : mergeIntoParent idField d bfr m = m := by
          simp [mergeIntoParent, hid, hl, hk]
        rw [hm]
        refine ⟨fun k v _ hv => hv, by simp [hasKey, hk], fun fs₁ hfs₁ => ?_⟩
        have hfe : fs = fs₁ := by simpa using hfs₁
        subst hfe
        exact ⟨fs, hk, fun _ _ hv => hv⟩
      | varr es =>
        have hm : mergeIntoParent idField d bfr m = m := by
          simp [mergeIntoParent, hid, hl, hk]
        rw [hm]
        exact ⟨fun k v _ hv => hv, by simp [hasKey, hk], fun fs₁ hfs₁ => by simp at hfs₁⟩
      | vint m' =>
        have hm : mergeIntoParent idField d bfr m = m := by
          simp [mergeIntoParent, hid, hl, hk]
        rw [hm]
        exact ⟨fun k v _ hv => hv, by simp [hasKey, hk], fun fs₁ hfs₁ => by simp at hfs₁⟩
      | vstr s =>
        have hm : mergeIntoParent idField d bfr m = m := by
          simp [mergeIntoParent, hid, hl, hk]
        rw [hm]
        exact ⟨fun k v _ hv => hv, by simp [hasKey, hk], fun fs₁ hfs₁ => by simp at hfs₁⟩
  | some v =>
    cases hk : getKey m d.outKey with
    | none =>
      have hm : mergeIntoParent idField d bfr m = setKey m d.outKey v := by
        simp [mergeIntoParent, hid, hl, hk]
      rw [hm]
      refine ⟨fun k w hne hw => ?_, ?_, fun fs hfs => by simp at hfs⟩
      · simpa [getKey_setKey_ne m d.outKey k _ hne] using hw
      · simp [hasKey, getKey_setKey_self]
    | some ex =>
      have hm : mergeIntoParent idField d bfr m
          = setKey m d.outKey (mergeValues idField ex v) := by
        simp [mergeIntoParent, hid, hl, hk]
      rw [hm]
      refine ⟨fun k w hne hw => ?_, ?_, fun fs hfs => ?_⟩
      · simpa [getKey_setKey_ne m d.outKey k _ hne] using hw
      · simp [hasKey, getKey_setKey_self]
      · have hfe : ex = Value.vobj fs := by simpa using hfs
        subst hfe
        obtain ⟨fs', heq, hext⟩ := mergeValues_obj idField fs v
        exact ⟨fs', by simp [getKey_setKey_self, heq], hext⟩

/-- When the parent identity has no entry in the batch result and the output
key holds nothing yet, the leaf is set to the empty value of its kind. -/
theorem mergeIntoParent_absent (idField : String) (d : BatchDirective)
    (bfr : List (Int × Value)) (m : Node) (pid : Int)
    (hid : nodeId idField m = some pid) (hl : lookupEntry bfr pid = none)
    (hk : getKey m d.outKey = none) :
    getKey (mergeIntoParent idField d bfr m) d.outKey
      = some (emptyLeaf (leafKind d)) := by
  have hm : mergeIntoParent idField d bfr m
      = setKey m d.outKey (emptyLeaf (leafKind d)) := by
    simp [mergeIntoParent, hid, hl, hk]
  simp [hm, getKey_setKey_self]

/-! ### Claim theorems -/

/-- C1: non-overwrite merge invariant.  If the node at the join path `p` is
present and carries its identity, then merging a batch-fetch result for the
strictly longer path `p.q` leaves every binding of that node other than the
output key untouched, makes the output key `q` present, and, when `q`
already held a join-built mapping, only ever adds bindings to it — it never
replaces or nulls out what the join had put there. -/
theorem claim_c1_nonoverwrite_merge
    (idField : String) (d : BatchDirective) (bfr : List (Int × Value))
    (n₁ m₁ : Node) (pid : Int)
    (hm : getAtPath n₁ ((parentSegs d).map (fun s => s.name)) = some m₁)
    (hid : nodeId idField m₁ = some pid) :
    ∃ m₂, getAtPath (applyBatchOne idField d bfr n₁)
        ((parentSegs d).map (fun s => s.name)) = some m₂ ∧
      (∀ k v, k ≠ d.outKey → getKey m₁ k = some v → getKey m₂ k = some v) ∧
      hasKey m₂ d.outKey = true ∧
      (∀ fs, getKey m₁ d.outKey = some (.vobj fs) →
        ∃ fs', getKey m₂ d.outKey = some (.vobj fs') ∧
          ∀ k v, getKey fs k = some v → getKey fs' k = some v) := by
  have h := getAtPath_atPath (parentSegs d) (mergeIntoParent idField d bfr) n₁ m₁ hm
  obtain ⟨hpres, hhas, hobj⟩ := mergeIntoParent_preserves idField d bfr m₁ pid hid
  exact ⟨mergeIntoParent idField d bfr m₁, h, hpres, hhas, hobj⟩

/-- Witness for C1 at the spec's Scenario B data: book 1 with a joined
publisher, merging the batched `publisher__books` result. -/
theorem claim_c1_witness :
    (getAtPath bookNode ((parentSegs pubBooksDirective).map (fun s => s.name))
        = some [("id", .vint 10), ("name", .vstr "P")] ∧
      nodeId "id" [("id", Value.vint 10), ("name", Value.vstr "P")] = some 10) ∧
    ∃ m₂, getAtPath (applyBatchOne "id" pubBooksDirective pubBooksResult bookNode)
        ((parentSegs pubBooksDirective).map (fun s => s.name)) = some m₂ ∧
      (∀ k v, k ≠ pubBooksDirective.outKey →
        getKey [("id", Value.vint 10), ("name", Value.vstr "P")] k = some v →
        getKey m₂ k = some v) ∧
      hasKey m₂ pubBooksDirective.outKey = true ∧
      (∀ fs, getKey [("id", Value.vint 10), ("name", Value.vstr "P")]
          pubBooksDirective.outKey = some (.vobj fs) →
        ∃ fs', getKey m₂ pubBooksDirective.outKey = some (.vobj fs') ∧
          ∀ k v, getKey fs k = some v → getKey fs' k = some v) :=
  ⟨⟨rfl, rfl⟩,
   claim_c1_nonoverwrite_merge "id" pubBooksDirective pubBooksResult bookNode
     [("id", .vint 10), ("name", .vstr "P")] 10 rfl rfl⟩

/-- C3: unresolved references are encoded in data, not errors.  At a parent
node whose identity has no entry in the batch result and whose output key is
still unset, a to-one relation materializes as `null` and a to-many relation
as the empty list; likewise a join with no matching row materializes its
leaf as `null`. -/
theorem claim_c3_unresolved_encoded
    (idField : String) (d : BatchDirective) (bfr : List (Int × Value))
    (n₁ m₁ : Node) (pid : Int)
    (hm : getAtPath n₁ ((parentSegs d).map (fun s => s.name)) = some m₁)
    (hid : nodeId idField m₁ = some pid)
    (habs : lookupEntry bfr pid = none)
    (hk : getKey m₁ d.outKey = none) :
    (∃ m₂, getAtPath (applyBatchOne idField d bfr n₁)
        ((parentSegs d).map (fun s => s.name)) = some m₂ ∧
      (leafKind d = .toOne → getKey m₂ d.outKey = some .vnull) ∧
      (leafKind d = .toMany → getKey m₂ d.outKey = some (.varr []))) ∧
    (∀ (r : RootRecord) (dj : JoinDirective),
      lookupJoin r (dj.path.map (fun s => s.name)) = none →
      joinLeafValue idField r dj = .vnull) := by
  constructor
  · have h := getAtPath_atPath (parentSegs d) (mergeIntoParent idField d bfr) n₁ m₁ hm
    have habs' := mergeIntoParent_absent idField d bfr m₁ pid hid habs hk
    refine ⟨mergeIntoParent idField d bfr m₁, h, fun h1 => ?_, fun hmany => ?_⟩
    · rw [habs', h1]
      simp [emptyLeaf]
    · rw [habs', hmany]
      simp [emptyLeaf]
  · intro r dj hnone
    simp [joinLeafValue, hnone]

/-- Witness for C3: book 1 alone at the root, batch-fetching its (empty)
`chapters`, and a join directive for a missing publisher row. -/
theorem claim_c3_witness :
    (getAtPath [("id", Value.vint 1)]
        ((parentSegs ⟨[⟨"chapters", .toMany⟩], "chapters"⟩).map (fun s => s.name))
        = some [("id", Value.vint 1)] ∧
      nodeId "id" [("id", Value.vint 1)] = some 1 ∧
      lookupEntry ([] : List (Int × Value)) 1 = none ∧
      getKey [("id", Value.vint 1)] "chapters" = none) ∧
    ((∃ m₂, getAtPath (applyBatchOne "id" ⟨[⟨"chapters", .toMany⟩], "chapters"⟩ []
        [("id", Value.vint 1)])
        ((parentSegs ⟨[⟨"chapters", .toMany⟩], "chapters"⟩).map (fun s => s.name))
        = some m₂ ∧
      (leafKind ⟨[⟨"chapters", .toMany⟩], "chapters"⟩ = .toOne →
        getKey m₂ "chapters" = some .vnull) ∧
      (leafKind ⟨[⟨"chapters", .toMany⟩], "chapters"⟩ = .toMany →
        getKey m₂ "chapters" = some (.varr []))) ∧
    (∀ (r : RootRecord) (dj : JoinDirective),
      lookupJoin r (dj.path.map (fun s => s.name)) = none →
      joinLeafValue "id" r dj = .vnull)) :=
  ⟨⟨rfl, rfl, rfl, rfl⟩,
   claim_c3_unresolved_encoded "id" ⟨[⟨"chapters", .toMany⟩], "chapters"⟩ []
     [("id", .vint 1)] [("id", .vint 1)] 1 rfl rfl rfl rfl⟩

/-- C4: generic (polymorphic) to-one references resolve to `null`, with no
error, both when the stored type tag was not among the batch-fetch's
requested target types and when the stored target identity is missing from
the fetched table (dangling reference). -/
theorem claim_c4_generic_null
    (gd : GenericDirective) (parent : Node) (ct oid : Int)
    (hct : getKey parent gd.ctField = some (.vint ct))
    (hoid : getKey parent gd.oidField = some (.vint oid)) :
    (lookupTarget gd.targets ct = none →
      getKey (mergeGeneric gd parent) gd.outKey = some .vnull) ∧
    (∀ tbl, lookupTarget gd.targets ct = some tbl → lookupEntry tbl oid = none →
      getKey (mergeGeneric gd parent) gd.outKey = some .vnull) := by
  constructor
  · intro h
    have hm : mergeGeneric gd parent = setKey parent gd.outKey .vnull := by
      simp [mergeGeneric, hct, hoid, valueId, h]
    simp [hm, getKey_setKey_self]
  · intro tbl h1 h2
    have hm : mergeGeneric gd parent = setKey parent gd.outKey .vnull := by
      simp [mergeGeneric, hct, hoid, valueId, h1, h2]
    simp [hm, getKey_setKey_self]

/-- Witness for C4 at the two test scenarios: type tag not requested, and
dangling target identity. -/
theorem claim_c4_witness :
    (getKey taggedItemNode "content_type_id" = some (.vint 7) ∧
      getKey taggedItemNode "object_id" = some (.vint 5) ∧
      lookupTarget articleOnlyDirective.targets 7 = none ∧
      getKey danglingItemNode "content_type_id" = some (.vint 3) ∧
      getKey danglingItemNode "object_id" = some (.vint 99999)) ∧
    getKey (mergeGeneric articleOnlyDirective taggedItemNode) "content_object"
      = some .vnull ∧
    getKey (mergeGeneric articleOnlyDirective danglingItemNode) "content_object"
      = some .vnull :=
  ⟨⟨rfl, rfl, rfl, rfl, rfl⟩,
   (claim_c4_generic_null articleOnlyDirective taggedItemNode 7 5 rfl rfl).1 rfl,
   (claim_c4_generic_null articleOnlyDirective danglingItemNode 3 99999 rfl rfl).2
     [(5, .vobj [("id", .vint 5), ("title", .vstr "A")])] rfl rfl⟩

/-- C9: idempotent re-resolution.  Resolving a path a second time on the
same tree changes nothing, re-resolution locates exactly the same nodes (no
duplication), and when a segment's node already exists as a mapping or a
list it is reused in place rather than replaced by a new empty one. -/
theorem claim_c9_idempotent_resolution :
    (∀ (ps : List Segment) (n : Node), atPath ps id (atPath ps id n) = atPath ps id n) ∧
    (∀ (ps : List Segment) (n : Node), nodesAtPath ps (atPath ps id n) = nodesAtPath ps n) ∧
    (∀ (seg : Segment) (n : Node) (fs : List (String × Value)),
      getKey n seg.name = some (.vobj fs) → resolveSeg seg n = n) ∧
    (∀ (seg : Segment) (n : Node) (es : List Value),
      getKey n seg.name = some (.varr es) → resolveSeg seg n = n) :=
  ⟨atPath_id_idem, nodesAtPath_atPath_id, resolveSeg_reuse_obj, resolveSeg_reuse_arr⟩

/-- Witness for C9 at the Scenario A node: resolving `publisher` twice. -/
theorem claim_c9_witness :
    (atPath [⟨"publisher", Kind.toOne⟩] id
        (atPath [⟨"publisher", Kind.toOne⟩] id bookNode)
      = atPath [⟨"publisher", Kind.toOne⟩] id bookNode) ∧
    (getKey bookNode "publisher"
        = some (.vobj [("id", .vint 10), ("name", .vstr "P")]) ∧
      resolveSeg ⟨"publisher", Kind.toOne⟩ bookNode = bookNode) :=
  ⟨claim_c9_idempotent_resolution.1 [⟨"publisher", Kind.toOne⟩] bookNode,
   rfl,
   claim_c9_idempotent_resolution.2.2.1 ⟨"publisher", Kind.toOne⟩ bookNode
     [("id", .vint 10), ("name", .vstr "P")] rfl⟩

/-! ### Lemmas about the query log -/

theorem foldl_batchStep_fst (idField : String) (c : Collaborator)
    (ds : List BatchDirective) (qs : List Query) (rs : List Node) :
    (ds.foldl (batchStep idField c) (qs, rs)).1 = qs ++ batchLog idField c ds rs := by
  induction ds generalizing qs rs with
  | nil => simp [batchLog]
  | cons d ds ih => simp [batchStep, batchLog, ih]

theorem foldl_batchStep_snd (idField : String) (c : Collaborator)
    (ds : List BatchDirective) (qs : List Query) (rs : List Node) :
    (ds.foldl (batchStep idField c) (qs, rs)).2 = batchRun idField c ds rs := by
  induction ds generalizing qs rs with
  | nil => simp [batchRun]
  | cons d ds ih => simp [batchStep, batchRun, ih]

theorem batchLog_length (idField : String) (c : Collaborator)
    (ds : List BatchDirective) (rs : List Node) :
    (batchLog idField c ds rs).length = ds.length := by
  induction ds generalizing rs with
  | nil => simp [batchLog]
  | cons d ds ih => simp [batchLog, ih]

theorem batchLog_countP_root (idField : String) (c : Collaborator)
    (ds : List BatchDirective) (rs : List Node) :
    (batchLog idField c ds rs).countP isRoot = 0 := by
  induction ds generalizing rs with
  | nil => simp [batchLog]
  | cons d ds ih => simp [batchLog, List.countP_cons, isRoot, ih]

theorem batchLog_countP_path (idField : String) (c : Collaborator)
    (ds : List BatchDirective) (rs : List Node) (p : List String) :
    (batchLog idField c ds rs).countP (isBatchFor p)
      = ds.countP (fun d => pathNames d == p) := by
  induction ds generalizing rs with
  | nil => simp [batchLog]
  | cons d ds ih => simp [batchLog, List.countP_cons, isBatchFor, ih]

theorem countP_beq_of_nodup_mem (l : List (List String)) (p : List String)
    (hnd : l.Nodup) (hp : p ∈ l) :
    l.countP (fun q => q == p) = 1 := by
  induction l with
  | nil => cases hp
  | cons q rest ih =>
    rcases List.mem_cons.mp hp with rfl | hmem
    · have hnotin : p ∉ rest := (List.nodup_cons.mp hnd).1
      have hz : rest.countP (fun r => r == p) = 0 := by
        refine List.countP_eq_zero.mpr (fun r hr => ?_)
        simp only [beq_iff_eq]
        intro hrq
        exact hnotin (hrq ▸ hr)
      simp [List.countP_cons, hz]
    · have hih := ih (List.nodup_cons.mp hnd).2 hmem
      have hne : ¬ ((q == p) = true) := by
        simp only [beq_iff_eq]
        intro hqp
        exact (List.nodup_cons.mp hnd).1 (hqp ▸ hmem)
      simp [List.countP_cons, hih, hne]

/-- C5: query minimality.  Every materialization drives exactly one root
query plus one batch query per batch directive — a count independent of the
collaborator's root rows, so it never grows with the number of roots — and
under the spec's no-duplicate-path invariant each distinct batch-fetch path
is queried exactly once. -/
theorem claim_c5_query_minimality (idField : String) (cfg : Config)
    (c : Collaborator) (hnd : (cfg.batches.map pathNames).Nodup) :
    ((valuesNested idField cfg c).1).length = 1 + cfg.batches.length ∧
    ((valuesNested idField cfg c).1).countP isRoot = 1 ∧
    ∀ p ∈ cfg.batches.map pathNames,
      ((valuesNested idField cfg c).1).countP (isBatchFor p) = 1 := by
  have hlog : (valuesNested idField cfg c).1
      = Query.rootQuery :: batchLog idField c cfg.batches
          (c.rootRows.map (materializeJoin idField cfg.rootProj cfg.joins)) := by
    simp [valuesNested, runBatches, foldl_batchStep_fst]
  rw [hlog]
  refine ⟨by simp [batchLog_length, Nat.add_comm], ?_, fun p hp => ?_⟩
  · simp [List.countP_cons, isRoot, batchLog_countP_root]
  · have hc := countP_beq_of_nodup_mem (cfg.batches.map pathNames) p hnd hp
    rw [List.countP_map] at hc
    simp only [List.countP_cons, isBatchFor, batchLog_countP_path]
    simpa using hc

/-- Witness for C5 at the combined-test configuration with two root rows. -/
theorem claim_c5_witness :
    (sampleConfig.batches.map pathNames).Nodup ∧
    ((valuesNested "id" sampleConfig sampleCollab).1).length
      = 1 + sampleConfig.batches.length ∧
    ((valuesNested "id" sampleConfig sampleCollab).1).countP isRoot = 1 ∧
    ((valuesNested "id" sampleConfig sampleCollab).1).countP
      (isBatchFor ["authors"]) = 1 ∧
    ((valuesNested "id" sampleConfig sampleCollab).1).countP
      (isBatchFor ["publisher", "books"]) = 1 := by
  have hnd : (sampleConfig.batches.map pathNames).Nodup := by
    simp [sampleConfig, pathNames, pubBooksDirective]
  have h := claim_c5_query_minimality "id" sampleConfig sampleCollab hnd
  exact ⟨hnd, h.1, h.2.1,
    h.2.2 ["authors"] (by simp [sampleConfig, pathNames, pubBooksDirective]),
    h.2.2 ["publisher", "books"] (by simp [sampleConfig, pathNames, pubBooksDirective])⟩

/-- C7: count laziness.  The count-only operation of a queryset with batch
directives configured drives exactly the root query — its log holds no
batch query — and still reports the root-row count. -/
theorem claim_c7_count_laziness (idField : String) (cfg : Config) (c : Collaborator) :
    (countOnly idField cfg c).1 = [Query.rootQuery] ∧
    ((countOnly idField cfg c).1).all isRoot = true ∧
    (countOnly idField cfg c).2 = c.rootRows.length := by
  exact ⟨rfl, rfl, by simp [countOnly]⟩

/-! ### Lemmas for slicing -/

theorem lookupEntry_filter_mem (table : List (Int × Value)) (pids : List Int)
    (i : Int) (h : i ∈ pids) :
    lookupEntry (table.filter (fun e => pids.contains e.1)) i
      = lookupEntry table i := by
  induction table with
  | nil => rfl
  | cons e rest ih =>
    rw [List.filter_cons]
    by_cases he : (e.1 == i) = true
    · have he' : e.1 = i := by simpa using he
      have hc : pids.contains e.1 = true := by
        rw [he']
        exact List.elem_eq_true_of_mem h
      rw [if_pos hc]
      unfold lookupEntry
      rw [List.find?_cons_of_pos (p := fun x => x.1 == i) (a := e) _ he,
        List.find?_cons_of_pos (p := fun x => x.1 == i) (a := e) _ he]
    · by_cases hc : pids.contains e.1 = true
      · rw [if_pos hc]
        unfold lookupEntry
        rw [List.find?_cons_of_neg (p := fun x => x.1 == i) (a := e) _ he,
          List.find?_cons_of_neg (p := fun x => x.1 == i) (a := e) _ he]
        exact ih
      · rw [if_neg hc, ih]
        unfold lookupEntry
        rw [List.find?_cons_of_neg (p := fun x => x.1 == i) (a := e) _ he]

theorem mergeIntoParent_congr (idField : String) (d : BatchDirective)
    (b1 b2 : List (Int × Value)) (m : Node)
    (h : ∀ i, nodeId idField m = some i → lookupEntry b1 i = lookupEntry b2 i) :
    mergeIntoParent idField d b1 m = mergeIntoParent idField d b2 m := by
  cases hid : nodeId idField m with
  | none => simp [mergeIntoParent, hid]
  | some pid => simp [mergeIntoParent, hid, h pid hid]

theorem applyBatchOne_congr (idField : String) (d : BatchDirective)
    (b1 b2 : List (Int × Value)) (n : Node)
    (h : ∀ i ∈ (nodesAtPath (parentSegs d) n).filterMap (nodeId idField),
      lookupEntry b1 i = lookupEntry b2 i) :
    applyBatchOne idField d b1 n = applyBatchOne idField d b2 n := by
  unfold applyBatchOne
  refine atPath_congr _ _ _ _ (fun m hm => ?_)
  refine mergeIntoParent_congr idField d b1 b2 m (fun i hi => ?_)
  exact h i (List.mem_filterMap.mpr ⟨m, hm, hi⟩)

/-- The batch phase consults the collaborator's tables only; the root-row
stream plays no further part. -/
theorem batchRun_update_rows (idField : String) (c : Collaborator)
    (l : List RootRecord) (ds : List BatchDirective) (rs : List Node) :
    batchRun idField { c with rootRows := l } ds rs = batchRun idField c ds rs := by
  induction ds generalizing rs with
  | nil => rfl
  | cons d ds ih => simp [batchRun, batchFetch, ih]

/-- Batch-fetching over a truncated root set produces exactly the truncation
of the full run: merges only ever consult the batch result at the parent
identities of the roots they are applied to, and those are queried either
way. -/
theorem batchRun_take (idField : String) (c : Collaborator)
    (ds : List BatchDirective) (k : Nat) (rs : List Node) :
    batchRun idField c ds (rs.take k) = (batchRun idField c ds rs).take k := by
  induction ds generalizing rs with
  | nil => simp [batchRun]
  | cons d ds ih =>
    simp only [batchRun]
    have hmap : (rs.take k).map (applyBatchOne idField d
          (batchFetch c (pathNames d) (collectIds idField (parentSegs d) (rs.take k))))
        = ((rs.map (applyBatchOne idField d
            (batchFetch c (pathNames d) (collectIds idField (parentSegs d) rs)))).take k) := by
      rw [← List.map_take]
      refine List.map_congr_left (fun r hr => ?_)
      refine applyBatchOne_congr _ _ _ _ _ (fun i hi => ?_)
      have hs : i ∈ collectIds idField (parentSegs d) (rs.take k) :=
        List.mem_flatMap.mpr ⟨r, hr, hi⟩
      have hf : i ∈ collectIds idField (parentSegs d) rs :=
        List.mem_flatMap.mpr ⟨r, List.mem_of_mem_take hr, hi⟩
      show lookupEntry ((c.batchTable (pathNames d)).filter _) i
        = lookupEntry ((c.batchTable (pathNames d)).filter _) i
      rw [lookupEntry_filter_mem _ _ _ hs, lookupEntry_filter_mem _ _ _ hf]
    rw [hmap, ih]

/-- C8: slicing laziness.  Slicing the lazy sequence to the first `k` roots
is the same run as materializing a collaborator narrowed to those roots, so
its batch queries operate over the already-limited root set and depend in no
way on the rows beyond the slice; and the sliced result is exactly the
`k`-prefix of the full ordered result. -/
theorem claim_c8_slicing_laziness (idField : String) (cfg : Config)
    (c : Collaborator) (k : Nat) :
    valuesNestedSlice idField cfg c k
      = valuesNested idField cfg { c with rootRows := c.rootRows.take k } ∧
    (valuesNestedSlice idField cfg c k).2 = ((valuesNested idField cfg c).2).take k ∧
    (∀ extra, k ≤ c.rootRows.length →
      valuesNestedSlice idField cfg { c with rootRows := c.rootRows ++ extra } k
        = valuesNestedSlice idField cfg c k) := by
  refine ⟨rfl, ?_, fun extra hk => ?_⟩
  · have h2 : (valuesNested idField cfg c).2
        = batchRun idField c cfg.batches
            (c.rootRows.map (materializeJoin idField cfg.rootProj cfg.joins)) := by
      simp [valuesNested, runBatches, foldl_batchStep_snd]
    have h1 : (valuesNestedSlice idField cfg c k).2
        = batchRun idField c cfg.batches
            ((c.rootRows.map (materializeJoin idField cfg.rootProj cfg.joins)).take k) := by
      simp [valuesNestedSlice, valuesNested, runBatches, foldl_batchStep_snd,
        batchRun_update_rows, List.map_take]
    rw [h1, h2, batchRun_take]
  · show valuesNested idField cfg
        { c with rootRows := (c.rootRows ++ extra).take k }
      = valuesNested idField cfg { c with rootRows := c.rootRows.take k }
    rw [List.take_append_of_le_length hk]

/-! ### Lemmas about well-shapedness (claim C2) -/

theorem wsN_cons_iff (ko : String → Option Kind) (k : String) (v : Value)
    (rest : List (String × Value)) :
    wsN ko ((k, v) :: rest) = true ↔
      (shapeTop ko k v = true ∧ wsV ko v = true ∧ wsN ko rest = true) := by
  simp [wsN, Bool.and_eq_true, and_assoc]

theorem wsL_cons_iff (ko : String → Option Kind) (e : Value) (rest : List Value) :
    wsL ko (e :: rest) = true ↔
      ((∃ fs, e = .vobj fs ∧ wsN ko fs = true) ∧ wsL ko rest = true) := by
  cases e <;> simp [wsL, Bool.and_eq_true]

theorem wsN_getKey (ko : String → Option Kind) (n : Node) (k : String) (v : Value)
    (hws : wsN ko n = true) (hg : getKey n k = some v) :
    shapeTop ko k v = true ∧ wsV ko v = true := by
  induction n with
  | nil => simp [getKey] at hg
  | cons kv rest ih =>
    obtain ⟨k₀, v₀⟩ := kv
    obtain ⟨h1, h2, h3⟩ := (wsN_cons_iff ko k₀ v₀ rest).mp hws
    by_cases hk : k₀ = k
    · subst hk
      simp [getKey] at hg
      subst hg
      exact ⟨h1, h2⟩
    · simp [getKey, hk] at hg
      exact ih h3 hg

theorem wsN_setKey (ko : String → Option Kind) (n : Node) (k : String) (v : Value)
    (hws : wsN ko n = true) (hshape : shapeTop ko k v = true)
    (hv : wsV ko v = true) : wsN ko (setKey n k v) = true := by
  induction n with
  | nil => simp [setKey, wsN_cons_iff, hshape, hv, wsN]
  | cons kv rest ih =>
    obtain ⟨k₀, v₀⟩ := kv
    obtain ⟨h1, h2, h3⟩ := (wsN_cons_iff ko k₀ v₀ rest).mp hws
    by_cases hk : k₀ = k
    · subst hk
      simp only [setKey, if_pos rfl]
      exact (wsN_cons_iff ko k₀ v rest).mpr ⟨hshape, hv, h3⟩
    · simp only [setKey, if_neg hk]
      exact (wsN_cons_iff ko k₀ v₀ _).mpr ⟨h1, h2, ih h3⟩

theorem wsN_append (ko : String → Option Kind) (a b : Node)
    (ha : wsN ko a = true) (hb : wsN ko b = true) : wsN ko (a ++ b) = true := by
  induction a with
  | nil => simpa using hb
  | cons kv rest ih =>
    obtain ⟨k₀, v₀⟩ := kv
    obtain ⟨h1, h2, h3⟩ := (wsN_cons_iff ko k₀ v₀ rest).mp ha
    exact (wsN_cons_iff ko k₀ v₀ _).mpr ⟨h1, h2, ih h3⟩

theorem wsN_filter (ko : String → Option Kind) (n : Node)
    (p : String × Value → Bool) (hws : wsN ko n = true) :
    wsN ko (n.filter p) = true := by
  induction n with
  | nil => simpa using hws
  | cons kv rest ih =>
    obtain ⟨k₀, v₀⟩ := kv
    obtain ⟨h1, h2, h3⟩ := (wsN_cons_iff ko k₀ v₀ rest).mp hws
    rw [List.filter_cons]
    by_cases hp : p (k₀, v₀) = true
    · rw [if_pos hp]
      exact (wsN_cons_iff ko k₀ v₀ _).mpr ⟨h1, h2, ih h3⟩
    · rw [if_neg hp]
      exact ih h3

theorem wsL_mem (ko : String → Option Kind) (es : List Value) (e : Value)
    (hws : wsL ko es = true) (he : e ∈ es) :
    ∃ fs, e = .vobj fs ∧ wsN ko fs = true := by
  induction es with
  | nil => cases he
  | cons x rest ih =>
    obtain ⟨hx, hrest⟩ := (wsL_cons_iff ko x rest).mp hws
    rcases List.mem_cons.mp he with rfl | hmem
    · exact hx
    · exact ih hrest hmem

theorem wsL_append (ko : String → Option Kind) (a b : List Value)
    (ha : wsL ko a = true) (hb : wsL ko b = true) : wsL ko (a ++ b) = true := by
  induction a with
  | nil => simpa using hb
  | cons x rest ih =>
    obtain ⟨hx, hrest⟩ := (wsL_cons_iff ko x rest).mp ha
    exact (wsL_cons_iff ko x _).mpr ⟨hx, ih hrest⟩

theorem wsL_filter (ko : String → Option Kind) (es : List Value)
    (p : Value → Bool) (hws : wsL ko es = true) :
    wsL ko (es.filter p) = true := by
  induction es with
  | nil => simpa using hws
  | cons x rest ih =>
    obtain ⟨hx, hrest⟩ := (wsL_cons_iff ko x rest).mp hws
    rw [List.filter_cons]
    by_cases hp : p x = true
    · rw [if_pos hp]
      exact (wsL_cons_iff ko x _).mpr ⟨hx, ih hrest⟩
    · rw [if_neg hp]
      exact ih hrest

theorem resolveSeg_ws (ko : String → Option Kind) (seg : Segment) (n : Node)
    (hagree : ko seg.name = some seg.kind) (hws : wsN ko n = true) :
    wsN ko (resolveSeg seg n) = true := by
  have hempty : ∀ hk : seg.kind = seg.kind,
      shapeTop ko seg.name (emptyFor seg.kind) = true ∧
        wsV ko (emptyFor seg.kind) = true := by
    intro _
    cases hk : seg.kind with
    | toOne =>
      rw [hk] at hagree
      exact ⟨by simp [shapeTop, hagree, emptyFor], by simp [emptyFor, wsV, wsN]⟩
    | toMany =>
      rw [hk] at hagree
      exact ⟨by simp [shapeTop, hagree, emptyFor], by simp [emptyFor, wsV, wsL]⟩
  obtain ⟨hsh, hv⟩ := hempty rfl
  cases hg : getKey n seg.name with
  | none =>
    have hm : resolveSeg seg n = setKey n seg.name (emptyFor seg.kind) := by
      simp [resolveSeg, hg]
    rw [hm]
    exact wsN_setKey ko n seg.name _ hws hsh hv
  | some v =>
    cases v with
    | vobj fs =>
      rw [resolveSeg_reuse_obj seg n fs hg]
      exact hws
    | varr es =>
      rw [resolveSeg_reuse_arr seg n es hg]
      exact hws
    | vint m =>
      have hm : resolveSeg seg n = setKey n seg.name (emptyFor seg.kind) := by
        simp [resolveSeg, hg]
      rw [hm]
      exact wsN_setKey ko n seg.name _ hws hsh hv
    | vstr s =>
      have hm : resolveSeg seg n = setKey n seg.name (emptyFor seg.kind) := by
        simp [resolveSeg, hg]
      rw [hm]
      exact wsN_setKey ko n seg.name _ hws hsh hv
    | vnull =>
      have hm : resolveSeg seg n = setKey n seg.name (emptyFor seg.kind) := by
        simp [resolveSeg, hg]
      rw [hm]
      exact wsN_setKey ko n seg.name _ hws hsh hv

theorem wsL_map_atPath (ko : String → Option Kind) (f : Node → Node)
    (rest : List Segment)
    (ihr : ∀ n, segsAgree ko rest → wsN ko n = true → wsN ko (atPath rest f n) = true)
    (hrest : segsAgree ko rest) (es : List Value) (hws : wsL ko es = true) :
    wsL ko (es.map (fun e =>
      match e with
      | .vobj fs => Value.vobj (atPath rest f fs)
      | other => other)) = true := by
  induction es with
  | nil => simpa using hws
  | cons x xs ihx =>
    obtain ⟨⟨fs, rfl, hfs⟩, hxs⟩ := (wsL_cons_iff ko x xs).mp hws
    simp only [List.map_cons]
    exact (wsL_cons_iff ko _ _).mpr
      ⟨⟨atPath rest f fs, rfl, ihr fs hrest hfs⟩, ihx hxs⟩

/-- Applying a shape-preserving transformation at a kind-respecting path
preserves well-shapedness of the whole tree. -/
theorem atPath_ws (ko : String → Option Kind) (f : Node → Node)
    (hf : ∀ m, wsN ko m = true → wsN ko (f m) = true) :
    ∀ (segs : List Segment) (n : Node), segsAgree ko segs →
      wsN ko n = true → wsN ko (atPath segs f n) = true := by
  intro segs
  induction segs with
  | nil =>
    intro n _ hws
    exact hf n hws
  | cons seg rest ih =>
    intro n hagree hws
    have hsegname : ko seg.name = some seg.kind := hagree seg (by simp)
    have hrest : segsAgree ko rest := fun s hs => hagree s (by simp [hs])
    have hres : wsN ko (resolveSeg seg n) = true :=
      resolveSeg_ws ko seg n hsegname hws
    rcases resolveSeg_shape seg n with ⟨fs, hfs⟩ | ⟨es, hes⟩
    · have hstep : atPath (seg :: rest) f n
          = setKey (resolveSeg seg n) seg.name (.vobj (atPath rest f fs)) := by
        simp [atPath, hfs]
      rw [hstep]
      obtain ⟨hsh, hv⟩ := wsN_getKey ko (resolveSeg seg n) seg.name _ hres hfs
      have hfs_ws : wsN ko fs = true := by simpa [wsV] using hv
      refine wsN_setKey ko _ seg.name _ hres ?_ ?_
      · cases hko : ko seg.name with
        | none => simp [shapeTop, hko, scalarOK] at hsh
        | some kind =>
          cases kind with
          | toOne => simp [shapeTop, hko]
          | toMany => simp [shapeTop, hko] at hsh
      · simpa [wsV] using ih fs hrest hfs_ws
    · have hstep : atPath (seg :: rest) f n
          = setKey (resolveSeg seg n) seg.name (.varr (es.map (fun e =>
              match e with
              | .vobj fs => Value.vobj (atPath rest f fs)
              | other => other))) := by
        simp [atPath, hes]
      rw [hstep]
      obtain ⟨hsh, hv⟩ := wsN_getKey ko (resolveSeg seg n) seg.name _ hres hes
      have hes_ws : wsL ko es = true := by simpa [wsV] using hv
      refine wsN_setKey ko _ seg.name _ hres ?_ ?_
      · cases hko : ko seg.name with
        | none => simp [shapeTop, hko, scalarOK] at hsh
        | some kind =>
          cases kind with
          | toOne => simp [shapeTop, hko] at hsh
          | toMany => simp [shapeTop, hko]
      · simpa [wsV] using wsL_map_atPath ko f rest ih hrest es hes_ws

theorem addRelKeys_ws (ko : String → Option Kind) (e i : Node)
    (he : wsN ko e = true) (hi : wsN ko i = true) :
    wsN ko (addRelKeys e i) = true :=
  wsN_append ko e _ he (wsN_filter ko i _ hi)

theorem lookupEntry_mem (es : List (Int × Value)) (i : Int) (v : Value)
    (h : lookupEntry es i = some v) : ∃ j, (j, v) ∈ es := by
  unfold lookupEntry at h
  cases hf : es.find? (fun e => e.1 == i) with
  | none => rw [hf] at h; cases h
  | some e =>
    rw [hf] at h
    cases h
    exact ⟨e.1, by simpa using List.mem_of_find?_eq_some hf⟩

theorem findById_ws (ko : String → Option Kind) (idField : String)
    (xs : List Value) (i : Int) (v : Value) (hws : wsL ko xs = true)
    (h : findById idField xs i = some v) :
    ∃ fs, v = .vobj fs ∧ wsN ko fs = true := by
  unfold findById at h
  exact wsL_mem ko xs v hws (List.mem_of_find?_eq_some h)

theorem mergeElem_ws (ko : String → Option Kind) (idField : String)
    (incoming : List Value) (hi : wsL ko incoming = true) (x : Value)
    (fs : List (String × Value)) (hx : x = .vobj fs) (hfs : wsN ko fs = true) :
    ∃ fs', mergeElem idField incoming x = .vobj fs' ∧ wsN ko fs' = true := by
  subst hx
  cases hid : nodeId idField fs with
  | none => exact ⟨fs, by simp [mergeElem, hid], hfs⟩
  | some i0 =>
    cases hfind : findById idField incoming i0 with
    | none => exact ⟨fs, by simp [mergeElem, hid, hfind], hfs⟩
    | some v =>
      obtain ⟨inc, rfl, hinc⟩ := findById_ws ko idField incoming i0 v hi hfind
      exact ⟨addRelKeys fs inc, by simp [mergeElem, hid, hfind],
        addRelKeys_ws ko fs inc hfs hinc⟩

theorem mergeLists_ws (ko : String → Option Kind) (idField : String)
    (e i : List Value) (he : wsL ko e = true) (hi : wsL ko i = true) :
    wsL ko (mergeLists idField e i) = true := by
  refine wsL_append ko _ _ ?_ (wsL_filter ko i _ hi)
  induction e with
  | nil => simp [wsL]
  | cons x xs ihx =>
    obtain ⟨⟨fs, rfl, hfs⟩, hxs⟩ := (wsL_cons_iff ko x xs).mp he
    obtain ⟨fs', heq, hfs'⟩ := mergeElem_ws ko idField i hi _ fs rfl hfs
    simp only [List.map_cons, heq]
    exact (wsL_cons_iff ko _ _).mpr ⟨⟨fs', rfl, hfs'⟩, ihx hxs⟩

theorem valShape_shapeTop (ko : String → Option Kind) (k : String) (kind : Kind)
    (v : Value) (hko : ko k = some kind) (hv : valShape ko kind v = true) :
    shapeTop ko k v = true ∧ wsV ko v = true := by
  cases kind with
  | toOne =>
    cases v with
    | vnull => exact ⟨by simp [shapeTop, hko], by simp [wsV]⟩
    | vobj fs => exact ⟨by simp [shapeTop, hko], by simpa [valShape, wsV] using hv⟩
    | vint m => simp [valShape] at hv
    | vstr s => simp [valShape] at hv
    | varr es => simp [valShape] at hv
  | toMany =>
    cases v with
    | varr es => exact ⟨by simp [shapeTop, hko], by simpa [valShape, wsV] using hv⟩
    | vnull => simp [valShape] at hv
    | vobj fs => simp [valShape] at hv
    | vint m => simp [valShape] at hv
    | vstr s => simp [valShape] at hv

theorem mergeValues_ws (ko : String → Option Kind) (idField : String)
    (k : String) (kind : Kind) (ex v : Value) (hko : ko k = some kind)
    (hexs : shapeTop ko k ex = true) (hexv : wsV ko ex = true)
    (hv : valShape ko kind v = true) :
    shapeTop ko k (mergeValues idField ex v) = true ∧
      wsV ko (mergeValues idField ex v) = true := by
  cases ex with
  | vnull =>
    have hm : mergeValues idField Value.vnull v = v := by
      cases v <;> rfl
    rw [hm]
    exact valShape_shapeTop ko k kind v hko hv
  | vobj e =>
    cases v with
    | vobj i =>
      have hin : wsN ko i = true := by
        have hkind : kind = .toOne := by
          cases kind with
          | toOne => rfl
          | toMany => simp [valShape] at hv
        rw [hkind] at hv
        simpa [valShape] using hv
      refine ⟨by simpa [shapeTop] using hexs, ?_⟩
      have he : wsN ko e = true := by simpa [wsV] using hexv
      simpa [mergeValues, wsV] using addRelKeys_ws ko e i he hin
    | vnull => exact ⟨by simpa [mergeValues] using hexs, by simpa [mergeValues] using hexv⟩
    | vint m => exact ⟨by simpa [mergeValues] using hexs, by simpa [mergeValues] using hexv⟩
    | vstr s => exact ⟨by simpa [mergeValues] using hexs, by simpa [mergeValues] using hexv⟩
    | varr es => exact ⟨by simpa [mergeValues] using hexs, by simpa [mergeValues] using hexv⟩
  | varr e =>
    cases v with
    | varr i =>
      have hin : wsL ko i = true := by
        have hkind : kind = .toMany := by
          cases kind with
          | toMany => rfl
          | toOne => simp [valShape] at hv
        rw [hkind] at hv
        simpa [valShape] using hv
      refine ⟨by simpa [shapeTop] using hexs, ?_⟩
      have he : wsL ko e = true := by simpa [wsV] using hexv
      simpa [mergeValues, wsV] using mergeLists_ws ko idField e i he hin
    | vnull => exact ⟨by simpa [mergeValues] using hexs, by simpa [mergeValues] using hexv⟩
    | vint m => exact ⟨by simpa [mergeValues] using hexs, by simpa [mergeValues] using hexv⟩
    | vstr s => exact ⟨by simpa [mergeValues] using hexs, by simpa [mergeValues] using hexv⟩
    | vobj fs => exact ⟨by simpa [mergeValues] using hexs, by simpa [mergeValues] using hexv⟩
  | vint m =>
    exact ⟨by simpa [mergeValues] using hexs, by simpa [mergeValues] using hexv⟩
  | vstr s =>
    exact ⟨by simpa [mergeValues] using hexs, by simpa [mergeValues] using hexv⟩

theorem mergeIntoParent_ws (ko : String → Option Kind) (idField : String)
    (d : BatchDirective) (bfr : List (Int × Value))
    (hout : ko d.outKey = some (leafKind d))
    (hbfr : ∀ i v, lookupEntry bfr i = some v → valShape ko (leafKind d) v = true)
    (m : Node) (hm : wsN ko m = true) :
    wsN ko (mergeIntoParent idField d bfr m) = true := by
  have hempty : shapeTop ko d.outKey (emptyLeaf (leafKind d)) = true ∧
      wsV ko (emptyLeaf (leafKind d)) = true := by
    cases hk : leafKind d with
    | toOne =>
      rw [hk] at hout
      exact ⟨by simp [shapeTop, hout, emptyLeaf], by simp [emptyLeaf, wsV]⟩
    | toMany =>
      rw [hk] at hout
      exact ⟨by simp [shapeTop, hout, emptyLeaf], by simp [emptyLeaf, wsV, wsL]⟩
  cases hid : nodeId idField m with
  | none =>
    have hmm : mergeIntoParent idField d bfr m = m := by simp [mergeIntoParent, hid]
    rw [hmm]
    exact hm
  | some pid =>
    cases hl : lookupEntry bfr pid with
    | none =>
      cases hk : getKey m d.outKey with
      | none =>
        have hmm : mergeIntoParent idField d bfr m
            = setKey m d.outKey (emptyLeaf (leafKind d)) := by
          simp [mergeIntoParent, hid, hl, hk]
        rw [hmm]
        exact wsN_setKey ko m d.outKey _ hm hempty.1 hempty.2
      | some ex =>
        cases ex with
        | vnull =>
          have hmm : mergeIntoParent idField d bfr m
              = setKey m d.outKey (emptyLeaf (leafKind d)) := by
            simp [mergeIntoParent, hid, hl, hk]
          rw [hmm]
          exact wsN_setKey ko m d.outKey _ hm hempty.1 hempty.2
        | vobj fs =>
          have hmm : mergeIntoParent idField d bfr m = m := by
            simp [mergeIntoParent, hid, hl, hk]
          rw [hmm]; exact hm
        | varr es =>
          have hmm : mergeIntoParent idField d bfr m = m := by
            simp [mergeIntoParent, hid, hl, hk]
          rw [hmm]; exact hm
        | vint m' =>
          have hmm : mergeIntoParent idField d bfr m = m := by
            simp [mergeIntoParent, hid, hl, hk]
          rw [hmm]; exact hm
        | vstr s =>
          have hmm : mergeIntoParent idField d bfr m = m := by
            simp [mergeIntoParent, hid, hl, hk]
          rw [hmm]; exact hm
    | some v =>
      have hvs := hbfr pid v hl
      cases hk : getKey m d.outKey with
      | none =>
        have hmm : mergeIntoParent idField d bfr m = setKey m d.outKey v := by
          simp [mergeIntoParent, hid, hl, hk]
        rw [hmm]
        obtain ⟨h1, h2⟩ := valShape_shapeTop ko d.outKey (leafKind d) v hout hvs
        exact wsN_setKey ko m d.outKey v hm h1 h2
      | some ex =>
        have hmm : mergeIntoParent idField d bfr m
            = setKey m d.outKey (mergeValues idField ex v) := by
          simp [mergeIntoParent, hid, hl, hk]
        rw [hmm]
        obtain ⟨hexs, hexv⟩ := wsN_getKey ko m d.outKey ex hm hk
        obtain ⟨h1, h2⟩ := mergeValues_ws ko idField d.outKey (leafKind d) ex v
          hout hexs hexv hvs
        exact wsN_setKey ko m d.outKey _ hm h1 h2

theorem applyBatchOne_ws (ko : String → Option Kind) (idField : String)
    (d : BatchDirective) (bfr : List (Int × Value))
    (hagree : segsAgree ko d.path)
    (hout : ko d.outKey = some (leafKind d))
    (hbfr : ∀ i v, lookupEntry bfr i = some v → valShape ko (leafKind d) v = true)
    (n : Node) (hn : wsN ko n = true) :
    wsN ko (applyBatchOne idField d bfr n) = true := by
  unfold applyBatchOne
  refine atPath_ws ko _ (fun m hm => mergeIntoParent_ws ko idField d bfr hout hbfr m hm)
    (parentSegs d) n (fun s hs => hagree s ?_) hn
  exact (List.dropLast_sublist d.path).subset hs

theorem mem_insertByLen (d : JoinDirective) (l : List JoinDirective) (e : JoinDirective) :
    e ∈ insertByLen d l ↔ e = d ∨ e ∈ l := by
  induction l with
  | nil => simp [insertByLen]
  | cons x xs ih =>
    by_cases h : d.path.length ≤ x.path.length
    · simp [insertByLen, h]
    · simp [insertByLen, h, ih]
      tauto

theorem mem_sortByLen (ds : List JoinDirective) (e : JoinDirective) :
    e ∈ sortByLen ds ↔ e ∈ ds := by
  induction ds with
  | nil => simp [sortByLen]
  | cons d rest ih => simp [sortByLen, mem_insertByLen, ih]

theorem applyJoin_ws (ko : String → Option Kind) (idField : String) (r : RootRecord)
    (hrec : ∀ p cols, (p, cols) ∈ r.joined → wsN ko cols = true)
    (d : JoinDirective) (hagree : segsAgree ko d.path)
    (hone : ∀ leaf, d.path.getLast? = some leaf → leaf.kind = .toOne)
    (n : Node) (hn : wsN ko n = true) :
    wsN ko (applyJoin idField r n d) = true := by
  unfold applyJoin
  cases hlast : d.path.getLast? with
  | none => exact hn
  | some leaf =>
    have hleafko : ko leaf.name = some Kind.toOne := by
      rw [hagree leaf (List.mem_of_mem_getLast? hlast), hone leaf hlast]
    have hlv : shapeTop ko leaf.name (joinLeafValue idField r d) = true ∧
        wsV ko (joinLeafValue idField r d) = true := by
      unfold joinLeafValue
      cases hlj : lookupJoin r (d.path.map (fun s => s.name)) with
      | none => exact ⟨by simp [shapeTop, hleafko], by simp [wsV]⟩
      | some cols =>
        have hcols : wsN ko cols = true := by
          unfold lookupJoin at hlj
          cases hf : r.joined.find? (fun q => q.1 == d.path.map (fun s => s.name)) with
          | none => rw [hf] at hlj; cases hlj
          | some q =>
            rw [hf] at hlj
            cases hlj
            exact hrec q.1 q.2 (List.mem_of_find?_eq_some hf)
        have hproj : wsN ko (projectFields d.proj idField cols) = true := by
          cases d.proj with
          | none => exact hcols
          | some allowed => exact wsN_filter ko cols _ hcols
        exact ⟨by simp [shapeTop, hleafko], by simpa [wsV] using hproj⟩
    refine atPath_ws ko _ (fun m hm => wsN_setKey ko m leaf.name _ hm hlv.1 hlv.2)
      d.path.dropLast n (fun s hs => hagree s ((List.dropLast_sublist d.path).subset hs)) hn

theorem foldl_applyJoin_ws (ko : String → Option Kind) (idField : String)
    (r : RootRecord)
    (hrec : ∀ p cols, (p, cols) ∈ r.joined → wsN ko cols = true) :
    ∀ (ds : List JoinDirective),
      (∀ d ∈ ds, segsAgree ko d.path ∧
        ∀ leaf, d.path.getLast? = some leaf → leaf.kind = .toOne) →
      ∀ n, wsN ko n = true → wsN ko (ds.foldl (applyJoin idField r) n) = true := by
  intro ds
  induction ds with
  | nil =>
    intro _ n hn
    exact hn
  | cons d rest ih =>
    intro hds n hn
    simp only [List.foldl_cons]
    refine ih (fun e he => hds e (by simp [he])) _ ?_
    obtain ⟨h1, h2⟩ := hds d (by simp)
    exact applyJoin_ws ko idField r hrec d h1 h2 n hn

theorem materializeJoin_ws (ko : String → Option Kind) (idField : String)
    (rootProj : Option (List String)) (ds : List JoinDirective) (r : RootRecord)
    (hown : wsN ko r.own = true)
    (hrec : ∀ p cols, (p, cols) ∈ r.joined → wsN ko cols = true)
    (hds : ∀ d ∈ ds, segsAgree ko d.path ∧
      ∀ leaf, d.path.getLast? = some leaf → leaf.kind = .toOne) :
    wsN ko (materializeJoin idField rootProj ds r) = true := by
  unfold materializeJoin
  refine foldl_applyJoin_ws ko idField r hrec (sortByLen ds)
    (fun d hd => hds d ((mem_sortByLen ds d).mp hd)) _ ?_
  cases rootProj with
  | none => exact hown
  | some allowed => exact wsN_filter ko r.own _ hown

theorem batchRun_ws (ko : String → Option Kind) (idField : String)
    (c : Collaborator) :
    ∀ (ds : List BatchDirective),
      (∀ d ∈ ds, segsAgree ko d.path ∧ ko d.outKey = some (leafKind d) ∧
        ∀ i v, (i, v) ∈ c.batchTable (pathNames d) →
          valShape ko (leafKind d) v = true) →
      ∀ roots, (∀ n ∈ roots, wsN ko n = true) →
      ∀ out ∈ batchRun idField c ds roots, wsN ko out = true := by
  intro ds
  induction ds with
  | nil =>
    intro _ roots hroots out hout
    exact hroots out (by simpa [batchRun] using hout)
  | cons d rest ih =>
    intro hds roots hroots out hout
    simp only [batchRun] at hout
    obtain ⟨h1, h2, h3⟩ := hds d (by simp)
    refine ih (fun e he => hds e (by simp [he])) _ ?_ out hout
    intro n hn
    obtain ⟨n₀, hn₀, rfl⟩ := List.mem_map.mp hn
    refine applyBatchOne_ws ko idField d _ h1 h2 ?_ n₀ (hroots n₀ hn₀)
    intro i v hlv
    obtain ⟨j, hj⟩ := lookupEntry_mem _ i v hlv
    exact h3 j v (List.mem_of_mem_filter hj)

/-- C2: shape correctness.  Under a kind assignment that every directive
respects and a collaborator that delivers well-shaped rows and batch
results, every node of every materialized result tree is shape-correct: a
to-one relation key holds `null` or a mapping and never a list, a to-many
relation key holds a list (possibly empty) of mappings and never `null` or
a bare mapping, and non-relation keys hold scalars. -/
theorem claim_c2_shape_correctness (idField : String) (ko : String → Option Kind)
    (cfg : Config) (c : Collaborator)
    (hrows : ∀ r ∈ c.rootRows, wsN ko r.own = true ∧
      ∀ p cols, (p, cols) ∈ r.joined → wsN ko cols = true)
    (hjoins : ∀ d ∈ cfg.joins, segsAgree ko d.path ∧
      ∀ leaf, d.path.getLast? = some leaf → leaf.kind = .toOne)
    (hbatches : ∀ d ∈ cfg.batches, segsAgree ko d.path ∧
      ko d.outKey = some (leafKind d) ∧
      ∀ i v, (i, v) ∈ c.batchTable (pathNames d) →
        valShape ko (leafKind d) v = true) :
    ∀ out ∈ (valuesNested idField cfg c).2, wsN ko out = true := by
  have hsnd : (valuesNested idField cfg c).2
      = batchRun idField c cfg.batches
          (c.rootRows.map (materializeJoin idField cfg.rootProj cfg.joins)) := by
    simp [valuesNested, runBatches, foldl_batchStep_snd]
  rw [hsnd]
  refine batchRun_ws ko idField c cfg.batches hbatches _ ?_
  intro n hn
  obtain ⟨r, hr, rfl⟩ := List.mem_map.mp hn
  exact materializeJoin_ws ko idField cfg.rootProj cfg.joins r
    (hrows r hr).1 (hrows r hr).2 hjoins

/-- Witness for C2: the first materialized node of the sample run is well
shaped under the sample kind assignment. -/
theorem claim_c2_witness :
    wsN sampleKinds
      [("id", Value.vint 1), ("title", Value.vstr "X"),
       ("publisher_id", Value.vint 10),
       ("publisher", Value.vobj
         [("id", Value.vint 10), ("name", Value.vstr "P"),
          ("books", Value.varr
            [Value.vobj [("id", Value.vint 1), ("title", Value.vstr "X")],
             Value.vobj [("id", Value.vint 2), ("title", Value.vstr "Y")]])]),
       ("authors", Value.varr
         [Value.vobj [("id", Value.vint 100), ("name", Value.vstr "John")],
          Value.vobj [("id", Value.vint 101), ("name", Value.vstr "Jane")]])]
      = true := by
  refine claim_c2_shape_correctness "id" sampleKinds sampleConfig sampleCollab
    ?_ ?_ ?_ _ ?_
  · intro r hr
    have hjcols : ∀ p cols, (p, cols) ∈
        [(["publisher"], [("id", Value.vint 10), ("name", Value.vstr "P")])] →
        wsN sampleKinds cols = true := by
      intro p cols hpc
      rcases List.mem_cons.mp hpc with heq | h2
      · have hc : cols = [("id", Value.vint 10), ("name", Value.vstr "P")] :=
          (by simpa using heq : _ ∧ _).2
        rw [hc]
        rfl
      · cases h2
    rcases List.mem_cons.mp hr with rfl | hr2
    · exact ⟨by rfl, hjcols⟩
    · rcases List.mem_cons.mp hr2 with rfl | hr3
      · exact ⟨by rfl, hjcols⟩
      · cases hr3
  · intro d hd
    rcases List.mem_cons.mp hd with rfl | hd2
    · refine ⟨fun s hs => ?_, fun leaf hleaf => ?_⟩
      · rcases List.mem_cons.mp hs with rfl | hs2
        · rfl
        · cases hs2
      · cases hleaf
        rfl
    · cases hd2
  · intro d hd
    rcases List.mem_cons.mp hd with rfl | hd2
    · refine ⟨fun s hs => ?_, rfl, ?_⟩
      · rcases List.mem_cons.mp hs with rfl | hs2
        · rfl
        · cases hs2
      · intro i v hiv
        rcases List.mem_cons.mp hiv with heq | h2
        · have h1 : i = 1 ∧ v = Value.varr
              [Value.vobj [("id", Value.vint 100), ("name", Value.vstr "John")],
               Value.vobj [("id", Value.vint 101), ("name", Value.vstr "Jane")]] := by
            simpa using heq
          rw [h1.2]
          rfl
        · rcases List.mem_cons.mp h2 with heq | h3
          · have h1 : i = 2 ∧ v = Value.varr
                [Value.vobj [("id", Value.vint 102), ("name", Value.vstr "Bob")]] := by
              simpa using heq
            rw [h1.2]
            rfl
          · cases h3
    · rcases List.mem_cons.mp hd2 with rfl | hd3
      · refine ⟨fun s hs => ?_, rfl, ?_⟩
        · rcases List.mem_cons.mp hs with rfl | hs2
          · rfl
          · rcases List.mem_cons.mp hs2 with rfl | hs3
            · rfl
            · cases hs3
        · intro i v hiv
          rcases List.mem_cons.mp hiv with heq | h2
          · have h1 : i = 10 ∧ v = Value.varr
                [Value.vobj [("id", Value.vint 1), ("title", Value.vstr "X")],
                 Value.vobj [("id", Value.vint 2), ("title", Value.vstr "Y")]] := by
              simpa using heq
            rw [h1.2]
            rfl
          · cases h2
      · cases hd3
  · exact List.mem_cons_self _ _

/-! ### Lemmas about the identity field and field projection (claim C6) -/

/-- Projection never discards the identity field, whatever its value. -/
theorem getKey_projectFields_id (proj : Option (List String)) (idField : String)
    (cols : Node) :
    getKey (projectFields proj idField cols) idField = getKey cols idField := by
  cases proj with
  | none => rfl
  | some allowed =>
    induction cols with
    | nil => rfl
    | cons kv rest ih =>
      obtain ⟨k₀, v₀⟩ := kv
      by_cases hk : k₀ = idField
      · subst hk
        simp [projectFields, List.filter_cons, getKey]
      · simp only [projectFields] at ih ⊢
        rw [List.filter_cons]
        by_cases hp : (allowed.contains k₀ || (k₀ == idField)) = true
        · rw [if_pos hp]
          simp only [getKey, if_neg hk]
          exact ih
        · rw [if_neg hp]
          simp only [getKey, if_neg hk]
          exact ih

/-- Under an explicit projection, every surviving key was either requested
or is the identity field. -/
theorem getKey_projectFields_bound (allowed : List String) (idField : String)
    (cols : Node) (k : String) (v : Value)
    (h : getKey (projectFields (some allowed) idField cols) k = some v) :
    k ∈ allowed ∨ k = idField := by
  induction cols with
  | nil => simp [projectFields, getKey] at h
  | cons kv rest ih =>
    obtain ⟨k₀, v₀⟩ := kv
    simp only [projectFields] at h ih
    rw [List.filter_cons] at h
    by_cases hp : (allowed.contains k₀ || (k₀ == idField)) = true
    · rw [if_pos hp] at h
      by_cases hk : k₀ = k
      · subst hk
        rcases Bool.or_eq_true _ _ |>.mp hp with hmem | hbeq
        · exact Or.inl (by simpa using hmem)
        · exact Or.inr (by simpa using hbeq)
      · simp only [getKey, if_neg hk] at h
        exact ih h
    · rw [if_neg hp] at h
      exact ih h

/-! Key-presence is monotone along the whole pipeline. -/

theorem hasKey_resolveSeg_mono (seg : Segment) (n : Node) (k : String)
    (h : hasKey n k = true) : hasKey (resolveSeg seg n) k = true := by
  unfold resolveSeg
  cases hg : getKey n seg.name with
  | none => exact hasKey_setKey_mono n seg.name k _ h
  | some v => cases v <;> first
    | exact h
    | exact hasKey_setKey_mono n seg.name k _ h

theorem hasKey_atPath_mono (f : Node → Node)
    (hf : ∀ m k, hasKey m k = true → hasKey (f m) k = true) :
    ∀ (segs : List Segment) (n : Node) (k : String),
      hasKey n k = true → hasKey (atPath segs f n) k = true := by
  intro segs
  induction segs with
  | nil =>
    intro n k h
    exact hf n k h
  | cons seg rest ih =>
    intro n k h
    have h' : hasKey (resolveSeg seg n) k = true := hasKey_resolveSeg_mono seg n k h
    rcases resolveSeg_shape seg n with ⟨fs, hfs⟩ | ⟨es, hes⟩
    · have hstep : atPath (seg :: rest) f n
          = setKey (resolveSeg seg n) seg.name (.vobj (atPath rest f fs)) := by
        simp [atPath, hfs]
      rw [hstep]
      exact hasKey_setKey_mono _ seg.name k _ h'
    · have hstep : atPath (seg :: rest) f n
          = setKey (resolveSeg seg n) seg.name (.varr (es.map (fun e =>
              match e with
              | .vobj fs => Value.vobj (atPath rest f fs)
              | other => other))) := by
        simp [atPath, hes]
      rw [hstep]
      exact hasKey_setKey_mono _ seg.name k _ h'

theorem hasKey_mergeIntoParent_mono (idField : String) (d : BatchDirective)
    (bfr : List (Int × Value)) (m : Node) (k : String)
    (h : hasKey m k = true) : hasKey (mergeIntoParent idField d bfr m) k = true := by
  cases hid : nodeId idField m with
  | none => simpa [mergeIntoParent, hid] using h
  | some pid =>
    cases hl : lookupEntry bfr pid with
    | none =>
      cases hk : getKey m d.outKey with
      | none =>
        have hmm : mergeIntoParent idField d bfr m
            = setKey m d.outKey (emptyLeaf (leafKind d)) := by
          simp [mergeIntoParent, hid, hl, hk]
        rw [hmm]
        exact hasKey_setKey_mono m d.outKey k _ h
      | some ex =>
        cases ex with
        | vnull =>
          have hmm : mergeIntoParent idField d bfr m
              = setKey m d.outKey (emptyLeaf (leafKind d)) := by
            simp [mergeIntoParent, hid, hl, hk]
          rw [hmm]
          exact hasKey_setKey_mono m d.outKey k _ h
        | vobj fs =>
          have hmm : mergeIntoParent idField d bfr m = m := by
            simp [mergeIntoParent, hid, hl, hk]
          rw [hmm]; exact h
        | varr es =>
          have hmm : mergeIntoParent idField d bfr m = m := by
            simp [mergeIntoParent, hid, hl, hk]
          rw [hmm]; exact h
        | vint m' =>
          have hmm : mergeIntoParent idField d bfr m = m := by
            simp [mergeIntoParent, hid, hl, hk]
          rw [hmm]; exact h
        | vstr s =>
          have hmm : mergeIntoParent idField d bfr m = m := by
            simp [mergeIntoParent, hid, hl, hk]
          rw [hmm]; exact h
    | some v =>
      cases hk : getKey m d.outKey with
      | none =>
        have hmm : mergeIntoParent idField d bfr m = setKey m d.outKey v := by
          simp [mergeIntoParent, hid, hl, hk]
        rw [hmm]
        exact hasKey_setKey_mono m d.outKey k _ h
      | some ex =>
        have hmm : mergeIntoParent idField d bfr m
            = setKey m d.outKey (mergeValues idField ex v) := by
          simp [mergeIntoParent, hid, hl, hk]
        rw [hmm]
        exact hasKey_setKey_mono m d.outKey k _ h

theorem hasKey_applyBatchOne_mono (idField : String) (d : BatchDirective)
    (bfr : List (Int × Value)) (n : Node) (k : String)
    (h : hasKey n k = true) : hasKey (applyBatchOne idField d bfr n) k = true := by
  unfold applyBatchOne
  exact hasKey_atPath_mono _
    (fun m k' h' => hasKey_mergeIntoParent_mono idField d bfr m k' h')
    (parentSegs d) n k h

theorem hasKey_applyJoin_mono (idField : String) (r : RootRecord)
    (d : JoinDirective) (n : Node) (k : String)
    (h : hasKey n k = true) : hasKey (applyJoin idField r n d) k = true := by
  unfold applyJoin
  cases hlast : d.path.getLast? with
  | none => exact h
  | some leaf =>
    exact hasKey_atPath_mono _
      (fun m k' h' => hasKey_setKey_mono m leaf.name k' _ h')
      d.path.dropLast n k h

theorem hasKey_materializeJoin_id (idField : String)
    (rootProj : Option (List String)) (ds : List JoinDirective) (r : RootRecord)
    (h : hasKey r.own idField = true) :
    hasKey (materializeJoin idField rootProj ds r) idField = true := by
  unfold materializeJoin
  have hseed : hasKey (projectFields rootProj idField r.own) idField = true := by
    unfold hasKey at h ⊢
    rw [getKey_projectFields_id]
    exact h
  generalize projectFields rootProj idField r.own = seed at hseed
  induction sortByLen ds generalizing seed with
  | nil => exact hseed
  | cons d rest ih =>
    simp only [List.foldl_cons]
    exact ih _ (hasKey_applyJoin_mono idField r d seed idField hseed)

theorem hasKey_batchRun_id (idField : String) (c : Collaborator) :
    ∀ (ds : List BatchDirective) (roots : List Node),
      (∀ n ∈ roots, hasKey n idField = true) →
      ∀ out ∈ batchRun idField c ds roots, hasKey out idField = true := by
  intro ds
  induction ds with
  | nil =>
    intro roots hroots out hout
    exact hroots out (by simpa [batchRun] using hout)
  | cons d rest ih =>
    intro roots hroots out hout
    simp only [batchRun] at hout
    refine ih _ ?_ out hout
    intro n hn
    obtain ⟨n₀, hn₀, rfl⟩ := List.mem_map.mp hn
    exact hasKey_applyBatchOne_mono idField d _ n₀ idField (hroots n₀ hn₀)

/-- C6: identity propagation under field projection.  Projection always
retains the identity field and admits no key outside the requested set plus
the identity field; consequently every root node of every materialization
carries the identity field, and every node the join materializer builds
from joined columns carries it as well. -/
theorem claim_c6_identity_propagation (idField : String) (cfg : Config)
    (c : Collaborator)
    (hrows : ∀ r ∈ c.rootRows, hasKey r.own idField = true) :
    (∀ (proj : Option (List String)) (cols : Node),
      hasKey cols idField = true →
      hasKey (projectFields proj idField cols) idField = true) ∧
    (∀ (allowed : List String) (cols : Node) (k : String) (v : Value),
      getKey (projectFields (some allowed) idField cols) k = some v →
      k ∈ allowed ∨ k = idField) ∧
    (∀ out ∈ (valuesNested idField cfg c).2, hasKey out idField = true) ∧
    (∀ (r : RootRecord) (d : JoinDirective) (cols : Node),
      lookupJoin r (d.path.map (fun s => s.name)) = some cols →
      hasKey cols idField = true →
      ∃ fs, joinLeafValue idField r d = .vobj fs ∧ hasKey fs idField = true) := by
  refine ⟨?_, ?_, ?_, ?_⟩
  · intro proj cols h
    unfold hasKey at h ⊢
    rw [getKey_projectFields_id]
    exact h
  · intro allowed cols k v h
    exact getKey_projectFields_bound allowed idField cols k v h
  · have hsnd : (valuesNested idField cfg c).2
        = batchRun idField c cfg.batches
            (c.rootRows.map (materializeJoin idField cfg.rootProj cfg.joins)) := by
      simp [valuesNested, runBatches, foldl_batchStep_snd]
    rw [hsnd]
    refine hasKey_batchRun_id idField c cfg.batches _ ?_
    intro n hn
    obtain ⟨r, hr, rfl⟩ := List.mem_map.mp hn
    exact hasKey_materializeJoin_id idField cfg.rootProj cfg.joins r (hrows r hr)
  · intro r d cols hlj hid
    refine ⟨projectFields d.proj idField cols, by simp [joinLeafValue, hlj], ?_⟩
    unfold hasKey at hid ⊢
    rw [getKey_projectFields_id]
    exact hid

/-- Witness for C6 at the sample run: the identity field survives a `title`
only projection, surviving keys are bounded, the first output root carries
`id`, and the joined publisher node carries `id`. -/
theorem claim_c6_witness :
    (∀ r ∈ sampleCollab.rootRows, hasKey r.own "id" = true) ∧
    hasKey (projectFields (some ["title"]) "id" bookRecord.own) "id" = true ∧
    ("title" ∈ ["title"] ∨ "title" = "id") ∧
    hasKey
      [("id", Value.vint 1), ("title", Value.vstr "X"),
       ("publisher_id", Value.vint 10),
       ("publisher", Value.vobj
         [("id", Value.vint 10), ("name", Value.vstr "P"),
          ("books", Value.varr
            [Value.vobj [("id", Value.vint 1), ("title", Value.vstr "X")],
             Value.vobj [("id", Value.vint 2), ("title", Value.vstr "Y")]])]),
       ("authors", Value.varr
         [Value.vobj [("id", Value.vint 100), ("name", Value.vstr "John")],
          Value.vobj [("id", Value.vint 101), ("name", Value.vstr "Jane")]])]
      "id" = true ∧
    (∃ fs, joinLeafValue "id" bookRecord ⟨[⟨"publisher", .toOne⟩], none⟩ = .vobj fs ∧
      hasKey fs "id" = true) := by
  have hrows : ∀ r ∈ sampleCollab.rootRows, hasKey r.own "id" = true := by
    intro r hr
    rcases List.mem_cons.mp hr with rfl | hr2
    · rfl
    · rcases List.mem_cons.mp hr2 with rfl | hr3
      · rfl
      · cases hr3
  have h := claim_c6_identity_propagation "id" sampleConfig sampleCollab hrows
  exact ⟨hrows,
    h.1 (some ["title"]) bookRecord.own rfl,
    h.2.1 ["title"] bookRecord.own "title" (.vstr "X") rfl,
    h.2.2.1 _ (List.mem_cons_self _ _),
    h.2.2.2 bookRecord ⟨[⟨"publisher", .toOne⟩], none⟩
      [("id", .vint 10), ("name", .vstr "P")] rfl rfl⟩

/-! ### Lemmas about untouched keys (claim C10) -/

theorem getKey_atPath_cons_ne (seg : Segment) (rest : List Segment)
    (f : Node → Node) (n : Node) (k : String) (h : k ≠ seg.name) :
    getKey (atPath (seg :: rest) f n) k = getKey n k := by
  rcases resolveSeg_shape seg n with ⟨fs, hfs⟩ | ⟨es, hes⟩
  · have hstep : atPath (seg :: rest) f n
        = setKey (resolveSeg seg n) seg.name (.vobj (atPath rest f fs)) := by
      simp [atPath, hfs]
    rw [hstep, getKey_setKey_ne _ seg.name k _ h, getKey_resolveSeg_ne seg n k h]
  · have hstep : atPath (seg :: rest) f n
        = setKey (resolveSeg seg n) seg.name (.varr (es.map (fun e =>
            match e with
            | .vobj fs => Value.vobj (atPath rest f fs)
            | other => other))) := by
      simp [atPath, hes]
    rw [hstep, getKey_setKey_ne _ seg.name k _ h, getKey_resolveSeg_ne seg n k h]

theorem getKey_mergeIntoParent_ne (idField : String) (d : BatchDirective)
    (bfr : List (Int × Value)) (m : Node) (k : String) (h : k ≠ d.outKey) :
    getKey (mergeIntoParent idField d bfr m) k = getKey m k := by
  cases hid : nodeId idField m with
  | none => simp [mergeIntoParent, hid]
  | some pid =>
    cases hl : lookupEntry bfr pid with
    | none =>
      cases hk : getKey m d.outKey with
      | none =>
        have hmm : mergeIntoParent idField d bfr m
            = setKey m d.outKey (emptyLeaf (leafKind d)) := by
          simp [mergeIntoParent, hid, hl, hk]
        rw [hmm, getKey_setKey_ne m d.outKey k _ h]
      | some ex =>
        cases ex with
        | vnull =>
          have hmm : mergeIntoParent idField d bfr m
              = setKey m d.outKey (emptyLeaf (leafKind d)) := by
            simp [mergeIntoParent, hid, hl, hk]
          rw [hmm, getKey_setKey_ne m d.outKey k _ h]
        | vobj fs =>
          have hmm : mergeIntoParent idField d bfr m = m := by
            simp [mergeIntoParent, hid, hl, hk]
          rw [hmm]
        | varr es =>
          have hmm : mergeIntoParent idField d bfr m = m := by
            simp [mergeIntoParent, hid, hl, hk]
          rw [hmm]
        | vint m' =>
          have hmm : mergeIntoParent idField d bfr m = m := by
            simp [mergeIntoParent, hid, hl, hk]
          rw [hmm]
        | vstr s =>
          have hmm : mergeIntoParent idField d bfr m = m := by
            simp [mergeIntoParent, hid, hl, hk]
          rw [hmm]
    | some v =>
      cases hk : getKey m d.outKey with
      | none =>
        have hmm : mergeIntoParent idField d bfr m = setKey m d.outKey v := by
          simp [mergeIntoParent, hid, hl, hk]
        rw [hmm, getKey_setKey_ne m d.outKey k _ h]
      | some ex =>
        have hmm : mergeIntoParent idField d bfr m
            = setKey m d.outKey (mergeValues idField ex v) := by
          simp [mergeIntoParent, hid, hl, hk]
        rw [hmm, getKey_setKey_ne m d.outKey k _ h]

theorem getKey_applyBatchOne_ne (idField : String) (d : BatchDirective)
    (bfr : List (Int × Value)) (n : Node) (k : String)
    (hp : k ∉ pathNames d) (ho : k ≠ d.outKey) :
    getKey (applyBatchOne idField d bfr n) k = getKey n k := by
  unfold applyBatchOne
  cases hps : parentSegs d with
  | nil => exact getKey_mergeIntoParent_ne idField d bfr n k ho
  | cons s rest =>
    have hs : s ∈ d.path := by
      refine (List.dropLast_sublist d.path).subset ?_
      rw [show d.path.dropLast = parentSegs d from rfl, hps]
      simp
    have hk : k ≠ s.name := by
      intro hkeq
      exact hp (by
        rw [hkeq]
        exact List.mem_map.mpr ⟨s, hs, rfl⟩)
    exact getKey_atPath_cons_ne s rest _ n k hk

theorem getKey_applyJoin_ne (idField : String) (r : RootRecord)
    (d : JoinDirective) (n : Node) (k : String)
    (h : ∀ seg ∈ d.path, k ≠ seg.name) :
    getKey (applyJoin idField r n d) k = getKey n k := by
  cases hlast : d.path.getLast? with
  | none =>
    have hmm : applyJoin idField r n d = n := by simp [applyJoin, hlast]
    rw [hmm]
  | some leaf =>
    have hmm : applyJoin idField r n d
        = atPath d.path.dropLast
            (fun parent => setKey parent leaf.name (joinLeafValue idField r d)) n := by
      simp [applyJoin, hlast]
    rw [hmm]
    cases hd : d.path.dropLast with
    | nil =>
      have hkl : k ≠ leaf.name := h leaf (List.mem_of_mem_getLast? hlast)
      exact getKey_setKey_ne n leaf.name k _ hkl
    | cons s rest =>
      have hs : s ∈ d.path := by
        refine (List.dropLast_sublist d.path).subset ?_
        rw [hd]
        simp
      exact getKey_atPath_cons_ne s rest _ n k (h s hs)

theorem foldl_applyJoin_getKey_ne (idField : String) (r : RootRecord)
    (k : String) :
    ∀ (l : List JoinDirective), (∀ d ∈ l, ∀ seg ∈ d.path, k ≠ seg.name) →
      ∀ seed, getKey (l.foldl (applyJoin idField r) seed) k = getKey seed k := by
  intro l
  induction l with
  | nil =>
    intro _ seed
    rfl
  | cons d rest ih =>
    intro hl seed
    rw [List.foldl_cons, ih (fun e he => hl e (by simp [he])) _,
      getKey_applyJoin_ne idField r d seed k (hl d (by simp))]

theorem getKey_materializeJoin_ne (idField : String)
    (rootProj : Option (List String)) (ds : List JoinDirective) (r : RootRecord)
    (k : String) (h : ∀ d ∈ ds, ∀ seg ∈ d.path, k ≠ seg.name) :
    getKey (materializeJoin idField rootProj ds r) k
      = getKey (projectFields rootProj idField r.own) k := by
  unfold materializeJoin
  exact foldl_applyJoin_getKey_ne idField r k (sortByLen ds)
    (fun d hd => h d ((mem_sortByLen ds d).mp hd)) _

theorem batchRun_getKey_ne (idField : String) (c : Collaborator) (k : String) :
    ∀ (ds : List BatchDirective),
      (∀ d ∈ ds, k ∉ pathNames d ∧ k ≠ d.outKey) →
      ∀ (roots : List Node), ∀ out ∈ batchRun idField c ds roots,
        ∃ n ∈ roots, getKey out k = getKey n k := by
  intro ds
  induction ds with
  | nil =>
    intro _ roots out hout
    exact ⟨out, by simpa [batchRun] using hout, rfl⟩
  | cons d rest ih =>
    intro hds roots out hout
    simp only [batchRun] at hout
    obtain ⟨n', hn', hk'⟩ := ih (fun e he => hds e (by simp [he])) _ out hout
    obtain ⟨n₀, hn₀, rfl⟩ := List.mem_map.mp hn'
    obtain ⟨h1, h2⟩ := hds d (by simp)
    exact ⟨n₀, hn₀, by rw [hk', getKey_applyBatchOne_ne idField d _ n₀ k h1 h2]⟩

/-- The materializer for a single one-segment join path: the seed extended
with the joined node under the relation's name. -/
theorem materializeJoin_single (idField : String)
    (rootProj : Option (List String)) (seg : Segment)
    (pj : Option (List String)) (r : RootRecord) :
    materializeJoin idField rootProj [⟨[seg], pj⟩] r
      = setKey (projectFields rootProj idField r.own) seg.name
          (joinLeafValue idField r ⟨[seg], pj⟩) := by
  rfl

/-- C10: un-requested forward foreign keys stay flat.  A relation name not
named by any directive never appears as a key of any materialized root; any
key untouched by every directive (such as the raw `publisher_id` column)
keeps exactly its projected row value through the whole pipeline; and when
a one-segment join path loads the relation, the raw id column remains
present alongside the nested mapping and equals that mapping's identity
field. -/
theorem claim_c10_unrequested_fk_flat (idField rel rid : String)
    (cfg : Config) (c : Collaborator)
    (hreljoins : ∀ d ∈ cfg.joins, ∀ seg ∈ d.path, rel ≠ seg.name)
    (hrelbatches : ∀ d ∈ cfg.batches, rel ∉ pathNames d ∧ rel ≠ d.outKey)
    (hrelrows : ∀ r ∈ c.rootRows,
      getKey (projectFields cfg.rootProj idField r.own) rel = none)
    (hridjoins : ∀ d ∈ cfg.joins, ∀ seg ∈ d.path, rid ≠ seg.name)
    (hridbatches : ∀ d ∈ cfg.batches, rid ∉ pathNames d ∧ rid ≠ d.outKey) :
    (∀ out ∈ (valuesNested idField cfg c).2, hasKey out rel = false) ∧
    (∀ out ∈ (valuesNested idField cfg c).2, ∃ r ∈ c.rootRows,
      getKey out rid = getKey (projectFields cfg.rootProj idField r.own) rid) ∧
    (∀ (r : RootRecord) (seg : Segment) (pj : Option (List String))
        (cols : Node) (i : Int),
      lookupJoin r [seg.name] = some cols →
      getKey cols idField = some (.vint i) →
      getKey (projectFields cfg.rootProj idField r.own) rid = some (.vint i) →
      rid ≠ seg.name →
      getKey (materializeJoin idField cfg.rootProj [⟨[seg], pj⟩] r) rid
          = some (.vint i) ∧
        getAtPath (materializeJoin idField cfg.rootProj [⟨[seg], pj⟩] r)
          [seg.name] = some (projectFields pj idField cols) ∧
        getKey (projectFields pj idField cols) idField = some (.vint i)) := by
  have hsnd : (valuesNested idField cfg c).2
      = batchRun idField c cfg.batches
          (c.rootRows.map (materializeJoin idField cfg.rootProj cfg.joins)) := by
    simp [valuesNested, runBatches, foldl_batchStep_snd]
  refine ⟨?_, ?_, ?_⟩
  · intro out hout
    rw [hsnd] at hout
    obtain ⟨n, hn, hk⟩ := batchRun_getKey_ne idField c rel cfg.batches
      hrelbatches _ out hout
    obtain ⟨r, hr, rfl⟩ := List.mem_map.mp hn
    rw [hasKey, hk,
      getKey_materializeJoin_ne idField cfg.rootProj cfg.joins r rel hreljoins,
      hrelrows r hr]
    rfl
  · intro out hout
    rw [hsnd] at hout
    obtain ⟨n, hn, hk⟩ := batchRun_getKey_ne idField c rid cfg.batches
      hridbatches _ out hout
    obtain ⟨r, hr, rfl⟩ := List.mem_map.mp hn
    exact ⟨r, hr, by
      rw [hk,
        getKey_materializeJoin_ne idField cfg.rootProj cfg.joins r rid hridjoins]⟩
  · intro r seg pj cols i hlj hcols hraw hne
    have hjv : joinLeafValue idField r ⟨[seg], pj⟩
        = .vobj (projectFields pj idField cols) := by
      simp [joinLeafValue, hlj]
    rw [materializeJoin_single, hjv]
    refine ⟨?_, ?_, ?_⟩
    · rw [getKey_setKey_ne _ seg.name rid _ hne]
      exact hraw
    · simp [getAtPath, getKey_setKey_self]
    · rw [getKey_projectFields_id]
      exact hcols

/-- The chapter row of the partial-select test: `book` joined, its
publisher not. -/
def chapterRecord : RootRecord :=
  { own := [("id", .vint 7), ("title", .vstr "Introduction"), ("book_id", .vint 5)]
    joined := [(["book"],
      [("id", .vint 5), ("title", .vstr "D4B"), ("publisher_id", .vint 10)])] }

/-- Witness for C10 at the partial-select scenario: `publisher` was not
requested and stays absent, `book_id` survives untouched, and the joined
`book` node sits alongside its raw id column. -/
theorem claim_c10_witness :
    (∀ out ∈ (valuesNested "id"
        ⟨none, [⟨[⟨"book", .toOne⟩], none⟩], []⟩
        ⟨[chapterRecord], fun _ => []⟩).2, hasKey out "publisher" = false) ∧
    (∀ out ∈ (valuesNested "id"
        ⟨none, [⟨[⟨"book", .toOne⟩], none⟩], []⟩
        ⟨[chapterRecord], fun _ => []⟩).2, ∃ r ∈ [chapterRecord],
      getKey out "book_id" = getKey (projectFields none "id" r.own) "book_id") ∧
    (getKey (materializeJoin "id" none [⟨[⟨"book", .toOne⟩], none⟩] chapterRecord)
        "book_id" = some (.vint 5) ∧
      getAtPath (materializeJoin "id" none [⟨[⟨"book", .toOne⟩], none⟩] chapterRecord)
        ["book"] = some (projectFields none "id"
          [("id", .vint 5), ("title", .vstr "D4B"), ("publisher_id", .vint 10)]) ∧
      getKey (projectFields none "id"
        [("id", .vint 5), ("title", .vstr "D4B"), ("publisher_id", .vint 10)])
        "id" = some (.vint 5)) := by
  have h := claim_c10_unrequested_fk_flat "id" "publisher" "book_id"
    ⟨none, [⟨[⟨"book", .toOne⟩], none⟩], []⟩ ⟨[chapterRecord], fun _ => []⟩
    (by
      intro d hd
      rcases List.mem_cons.mp hd with rfl | h2
      · intro seg hs
        rcases List.mem_cons.mp hs with rfl | h3
        · decide
        · cases h3
      · cases h2)
    (by intro d hd; cases hd)
    (by
      intro r hr
      rcases List.mem_cons.mp hr with rfl | h2
      · rfl
      · cases h2)
    (by
      intro d hd
      rcases List.mem_cons.mp hd with rfl | h2
      · intro seg hs
        rcases List.mem_cons.mp hs with rfl | h3
        · decide
        · cases h3
      · cases h2)
    (by intro d hd; cases hd)
  exact ⟨h.1, h.2.1,
    h.2.2 chapterRecord ⟨"book", .toOne⟩ none
      [("id", .vint 5), ("title", .vstr "D4B"), ("publisher_id", .vint 10)] 5
      rfl rfl rfl (by decide)⟩

/-- Witness for C8: slicing the two-row sample run to its first root. -/
theorem claim_c8_witness :
    (1 ≤ sampleCollab.rootRows.length) ∧
    valuesNestedSlice "id" sampleConfig sampleCollab 1
      = valuesNested "id" sampleConfig
          { sampleCollab with rootRows := sampleCollab.rootRows.take 1 } ∧
    (valuesNestedSlice "id" sampleConfig sampleCollab 1).2
      = ((valuesNested "id" sampleConfig sampleCollab).2).take 1 ∧
    valuesNestedSlice "id" sampleConfig
        { sampleCollab with rootRows := sampleCollab.rootRows ++ [bookRecord2] } 1
      = valuesNestedSlice "id" sampleConfig sampleCollab 1 := by
  have h := claim_c8_slicing_laziness "id" sampleConfig sampleCollab 1
  exact ⟨by simp [sampleCollab], h.1, h.2.1,
    h.2.2 [bookRecord2] (by simp [sampleCollab])⟩

end NestedValues
